import Mathlib

/-!
Verification of the httpfromtcp HTTP/1.1 server core: the incremental
request decoder (`internal/request/request.go`), the header table
(`internal/headers/headers.go`, modelled from the repository's spec and
code-explanation document since the file itself is absent from the source
snapshot), the router (`internal/mux/mux.go`) and the middleware composer.

Byte buffers are modelled as `List Char` (the requests are ASCII byte
strings); Go `int` arithmetic is modelled as `Int` where sign matters
(Content-Length handling) and `Nat` for lengths and offsets.
-/

abbrev Bytes := List Char

/-- Go `strings.ToLower` restricted to ASCII, applied byte-wise
(header names are ASCII tokens). -/
def toLowerBytes (l : Bytes) : Bytes := l.map Char.toLower

/-- Go `bytes.Index data []byte("\r\n")`: index of the first occurrence
of CRLF in the buffer, `none` when absent. -/
def crlfIndex : Bytes → Option Nat
  | [] => none
  | c :: rest =>
    if c = '\r' ∧ rest.head? = some '\n' then some 0
    else (crlfIndex rest).map (· + 1)

/-- Go `bytes.Split` / `strings.Split` on a one-byte separator: no
collapsing of empty fields, splitting the empty buffer gives `[[]]`. -/
def splitOnChar (sep : Char) : Bytes → List Bytes
  | [] => [[]]
  | c :: rest =>
    match splitOnChar sep rest with
    | [] => [[]]
    | h :: t => if c = sep then [] :: h :: t else (c :: h) :: t

/-- Go `bytes.SplitN(l, sep, 2)` reported as the two pieces around the
first occurrence of `sep`, or `none` when `sep` does not occur. -/
def splitOnFirst (sep : Char) : Bytes → Option (Bytes × Bytes)
  | [] => none
  | c :: rest =>
    if c = sep then some ([], rest)
    else (splitOnFirst sep rest).map (fun p => (c :: p.1, p.2))

/-- ASCII whitespace recognized by Go `bytes.TrimSpace` on ASCII input. -/
def isSpaceByte (c : Char) : Bool :=
  c = ' ' || c = '\t' || c = '\n' || c = Char.ofNat 11 || c = Char.ofNat 12 || c = '\r'

/-- Go `bytes.TrimSpace` on ASCII input: drop leading and trailing
whitespace bytes. -/
def trimSpaceBytes (l : Bytes) : Bytes :=
  ((l.dropWhile isSpaceByte).reverse.dropWhile isSpaceByte).reverse

/-- Go `strings.Trim(s, cutset)` for a one-byte cutset: drop every
leading and every trailing occurrence of `cut`. -/
def trimChar (cut : Char) (l : Bytes) : Bytes :=
  ((l.dropWhile (· = cut)).reverse.dropWhile (· = cut)).reverse

/-- Go `strings.Trim(s, "\x7bid\x7d"-style two-byte cutset)`: drop every
leading and every trailing byte that belongs to the cutset. -/
def trimCutset (cutset : List Char) (l : Bytes) : Bytes :=
  ((l.dropWhile (cutset.contains ·)).reverse.dropWhile (cutset.contains ·)).reverse

/-- Go `strings.HasPrefix(s, string(c))` for a one-byte needle. -/
def startsWithChar (c : Char) : Bytes → Bool
  | [] => false
  | x :: _ => x = c

/-- Go `strings.HasSuffix(s, string(c))` for a one-byte needle. -/
def endsWithChar (c : Char) (l : Bytes) : Bool :=
  startsWithChar c l.reverse

/-- Whether the byte occurs in the buffer. -/
def containsChar (c : Char) (l : Bytes) : Bool := l.contains c

/-- Decimal digit run to its value, `none` unless the run is nonempty
and all digits (the core of Go `strconv.Atoi` after the sign). -/
def digitsVal? : Bytes → Option Nat
  | [] => none
  | [c] => if c.isDigit then some (c.toNat - '0'.toNat) else none
  | c :: rest =>
    if c.isDigit then
      (digitsVal? rest).map (fun v => (c.toNat - '0'.toNat) * 10 ^ rest.length + v)
    else none

/-- Go `strconv.Atoi`: optional sign, a nonempty all-digit run, and the
value must fit in a signed 64-bit int; anything else is an error
(`none`). -/
def atoi? (s : Bytes) : Option Int :=
  match s with
  | '+' :: rest =>
    (digitsVal? rest).bind (fun v => if v ≤ 2 ^ 63 - 1 then some (Int.ofNat v) else none)
  | '-' :: rest =>
    (digitsVal? rest).bind (fun v => if v ≤ 2 ^ 63 then some (-(Int.ofNat v)) else none)
  | _ =>
    (digitsVal? s).bind (fun v => if v ≤ 2 ^ 63 - 1 then some (Int.ofNat v) else none)

/-- Modelled from the spec: the `internal/headers` package is absent from
the source snapshot (only its code-explanation document and its callers
are present).  `HeaderTable`: an ordered string-keyed table, keys stored
normalized to lower case.  Represented as an association list in
insertion order. -/
structure Headers where
  entries : List (Bytes × Bytes)
deriving DecidableEq, Repr

/-- Modelled from the spec: `NewHeaders` creates the empty table. -/
def NewHeaders : Headers := ⟨[]⟩

/-- Modelled from the spec: `Headers.Get` looks the name up
case-insensitively and reports presence. -/
def Headers.get (h : Headers) (name : Bytes) : Option Bytes :=
  go h.entries (toLowerBytes name)
where
  go : List (Bytes × Bytes) → Bytes → Option Bytes
    | [], _ => none
    | (k, v) :: rest, key => if k = key then some v else go rest key

/-- Modelled from the spec: `Headers.Set` appends comma-joined when the
(lower-cased) name is already present, otherwise inserts at the end. -/
def Headers.set (h : Headers) (name value : Bytes) : Headers :=
  ⟨go h.entries (toLowerBytes name)⟩
where
  go : List (Bytes × Bytes) → Bytes → List (Bytes × Bytes)
    | [], key => [(key, value)]
    | (k, v) :: rest, key =>
      if k = key then (k, v ++ (", ".toList) ++ value) :: rest
      else (k, v) :: go rest key

/-- Modelled from the spec: `Headers.Replace` unconditionally overwrites
the (lower-cased) name. -/
def Headers.replace (h : Headers) (name value : Bytes) : Headers :=
  ⟨go h.entries (toLowerBytes name)⟩
where
  go : List (Bytes × Bytes) → Bytes → List (Bytes × Bytes)
    | [], key => [(key, value)]
    | (k, v) :: rest, key =>
      if k = key then (k, value) :: rest
      else (k, v) :: go rest key

/-- Modelled from the spec: a token character of an HTTP header field
name: letters, digits, and the listed specials. -/
def isTokenChar (c : Char) : Bool :=
  (c ≥ 'A' && c ≤ 'Z') || (c ≥ 'a' && c ≤ 'z') || (c ≥ '0' && c ≤ '9') ||
    c = '!' || c = '#' || c = '$' || c = '%' || c = '&' || c = '\'' ||
    c = '*' || c = '+' || c = '-' || c = '.' || c = '^' || c = '_' ||
    c = Char.ofNat 96 || c = '|' || c = '~'

/-- Modelled from the spec: `isToken` holds when every byte of the name
is a token character (vacuously true of the empty name, as in the
source's character loop). -/
def isToken (l : Bytes) : Bool := l.all isTokenChar

/-- Parse error kinds of the decoder.  `panicChunked` and
`panicSliceBounds` model the two Go runtime panics reachable from the
`StateBody` arm (`panic("chunked not implemented")` and a negative slice
bound); they are represented as distinguished outcomes. -/
inductive PErr where
  | malformedRequestLine
  | malformedFieldLine
  | malformedHeaderName
  | requestInErrorState
  | panicChunked
  | panicSliceBounds
deriving DecidableEq, Repr

/-- Result of `Headers.Parse`: consumed count, completion flag and the
updated table, or an error carrying the partially updated table (the Go
map is mutated in place, so entries set before a malformed line
persist). -/
inductive HPResult where
  | okHp (h : Headers) (read : Nat) (done : Bool)
  | err (h : Headers) (e : PErr)
deriving DecidableEq, Repr

/-- Modelled from the spec: one header field line, split on the first
colon, value trimmed of surrounding whitespace; a line without a colon
is malformed. -/
def parseHeaderLine (fieldLine : Bytes) : Except PErr (Bytes × Bytes) :=
  match splitOnFirst ':' fieldLine with
  | none => .error .malformedFieldLine
  | some (name, rest) => .ok (name, trimSpaceBytes rest)

/-- Modelled from the spec: the loop body of `Headers.Parse`, with
structural fuel (one unit per consumed line; `data.length + 1` always
suffices).  Repeatedly takes the next CRLF-terminated line: a blank line
completes the section, otherwise the line is split into name and value,
the name is validated to contain only token characters, and the pair is
inserted with `Set` semantics. -/
def hpF : Nat → Headers → Bytes → HPResult
  | 0, h, _ => .okHp h 0 false
  | f + 1, h, data =>
    match crlfIndex data with
    | none => .okHp h 0 false
    | some 0 => .okHp h 2 true
    | some (i + 1) =>
      match parseHeaderLine (data.take (i + 1)) with
      | .error e => .err h e
      | .ok (name, value) =>
        if isToken name then
          match hpF f (h.set name value) (data.drop (i + 1 + 2)) with
          | .err h' e => .err h' e
          | .okHp h' m d => .okHp h' (i + 1 + 2 + m) d
        else .err h .malformedHeaderName

/-- Modelled from the spec: `Headers.Parse` over a byte buffer. -/
def headersParse (h : Headers) (data : Bytes) : HPResult :=
  hpF (data.length + 1) h data

/-- `RequestLine` of `internal/request/request.go`. -/
structure RequestLine where
  httpVersion : Bytes
  requestTarget : Bytes
  method : Bytes
deriving DecidableEq, Repr

/-- The decoder states of `internal/request/request.go` (`parserState`),
the Go string constants modelled as a closed enumeration. -/
inductive ParserState where
  | stateInit
  | stateHeaders
  | stateBody
  | stateDone
  | stateError
deriving DecidableEq, Repr

/-- `Request` of `internal/request/request.go` (the source snapshot's
version, which carries no query field). -/
structure Request where
  requestLine : RequestLine
  headers : Headers
  body : Bytes
  pathParams : List (Bytes × Bytes)
  state : ParserState
deriving DecidableEq, Repr

/-- `getInt`: read a header as an integer, falling back to the default
when absent or unparsable. -/
def getInt (h : Headers) (name : Bytes) (defaultValue : Int) : Int :=
  match h.get name with
  | none => defaultValue
  | some v =>
    match atoi? v with
    | none => defaultValue
    | some value => value

/-- `newRequest`: the initial decoder state. -/
def newRequest : Request :=
  { state := .stateInit
    headers := NewHeaders
    body := []
    pathParams := []
    requestLine := { httpVersion := [], requestTarget := [], method := [] } }

/-- The key `"content-length"` as bytes. -/
def contentLengthKey : Bytes := "content-length".toList

/-- `Request.hasBody`: the Content-Length header parses to a positive
integer. -/
def Request.hasBody (r : Request) : Bool :=
  decide (0 < getInt r.headers contentLengthKey 0)

/-- Result of `parseRequestLine`: need more data (no CRLF yet), a
malformed line, or the parsed line with its consumed byte count. -/
inductive RLResult where
  | needMore
  | malformed
  | okLine (rl : RequestLine) (read : Nat)
deriving DecidableEq, Repr

/-- `parseRequestLine` of `internal/request/request.go`: take the first
CRLF-terminated line, split it on single spaces into exactly three
parts, and require the third to split on `/` into `HTTP` and `1.1`. -/
def parseRequestLine (b : Bytes) : RLResult :=
  match crlfIndex b with
  | none => .needMore
  | some idx =>
    let startLine := b.take idx
    let read := idx + 2
    let parts := splitOnChar ' ' startLine
    if parts.length = 3 then
      let httpParts := splitOnChar '/' (parts.getD 2 [])
      if httpParts.length = 2 ∧ httpParts.getD 0 [] = "HTTP".toList ∧
          httpParts.getD 1 [] = "1.1".toList then
        .okLine
          { method := parts.getD 0 []
            requestTarget := parts.getD 1 []
            httpVersion := httpParts.getD 1 [] } read
      else .malformed
    else .malformed

/-- Outcome of one iteration of the `Request.parse` loop body (the
`switch` over the state): break out of the loop, consume `n` bytes and
continue, or fail. -/
inductive IterRes where
  | broke
  | stepped (r : Request) (n : Nat)
  | errored (r : Request) (e : PErr)
deriving DecidableEq, Repr

/-- One iteration of the `Request.parse` state machine on the remaining
buffer (assumed nonempty; the loop head checks emptiness). -/
def parseIter (r : Request) (currentData : Bytes) : IterRes :=
  match r.state with
  | .stateError => .errored r .requestInErrorState
  | .stateDone => .broke
  | .stateInit =>
    match parseRequestLine currentData with
    | .needMore => .broke
    | .malformed => .errored { r with state := .stateError } .malformedRequestLine
    | .okLine rl n => .stepped { r with requestLine := rl, state := .stateHeaders } n
  | .stateHeaders =>
    match headersParse r.headers currentData with
    | .err h' e => .errored { r with headers := h', state := .stateError } e
    | .okHp h' n dn =>
      if n = 0 then .broke
      else
        .stepped
          { r with headers := h'
                   state :=
                     if dn then
                       (if Request.hasBody { r with headers := h' } then .stateBody
                        else .stateDone)
                     else .stateHeaders } n
  | .stateBody =>
    let length := getInt r.headers contentLengthKey 0
    if length = 0 then .errored r .panicChunked
    else
      let need : Int := length - (r.body.length : Int)
      if need < 0 then .errored r .panicSliceBounds
      else
        let remaining := min need.toNat currentData.length
        let body' := r.body ++ currentData.take remaining
        .stepped
          { r with body := body'
                   state := if (body'.length : Int) = length then .stateDone
                            else .stateBody } remaining

/-- Result of `Request.parse`: the (possibly mutated) request and the
consumed count, or the mutated request and the error (in which case Go
returns a consumed count of 0). -/
inductive PResult where
  | ok (r : Request) (read : Nat)
  | err (r : Request) (e : PErr)
deriving DecidableEq, Repr

/-- Add an already-consumed count in front of a loop result (errors
discard the count, as `Request.parse` returns 0 alongside an error). -/
def withRead : PResult → Nat → PResult
  | .ok r m, n => .ok r (n + m)
  | .err r e, _ => .err r e

/-- The `Request.parse` loop with structural fuel (one unit per
progressing iteration; `data.length + 1` always suffices because every
recursing iteration consumes at least one byte). -/
def parseLoopF : Nat → Request → Bytes → PResult
  | 0, r, _ => .ok r 0
  | f + 1, r, data =>
    if data.isEmpty then .ok r 0
    else
      match parseIter r data with
      | .broke => .ok r 0
      | .errored r' e => .err r' e
      | .stepped r' n =>
        if n = 0 then .ok r' 0
        else withRead (parseLoopF f r' (data.drop n)) n

/-- `Request.parse` on a byte buffer. -/
def parse (r : Request) (data : Bytes) : PResult :=
  parseLoopF (data.length + 1) r data

/-- `Request.done`: terminal states. -/
def Request.isDone (r : Request) : Bool :=
  r.state = .stateDone || r.state = .stateError

/-- Errors surfaced by `RequestFromReader`: the distinct
connection-closed-early error, or a propagated parse error. -/
inductive RFRErr where
  | connectionClosedEarly
  | parseErr (e : PErr)
deriving DecidableEq, Repr

/-- The `RequestFromReader` loop.  The byte source is modelled as the
list of successive read results (end of stream after the last); the Go
1024-byte scratch buffer is modelled as unbounded, each read delivering
its chunk whole.  While the request is not done: read (end of stream
with the request unfinished is the connection-closed-early error), parse
the carried-over unconsumed bytes plus the new chunk, and keep only the
unconsumed suffix. -/
def rfrLoop (r : Request) (buf : Bytes) : List Bytes → Except RFRErr Request
  | [] => if r.isDone then .ok r else .error .connectionClosedEarly
  | c :: rest =>
    if r.isDone then .ok r
    else
      match parse r (buf ++ c) with
      | .err _ e => .error (.parseErr e)
      | .ok r' n => rfrLoop r' ((buf ++ c).drop n) rest

/-- `RequestFromReader` over a modelled byte source. -/
def RequestFromReader (reads : List Bytes) : Except RFRErr Request :=
  rfrLoop newRequest [] reads

/-- Result of driving the decoder chunk by chunk: terminal request,
total bytes consumed and the leftover unconsumed buffer, or the error. -/
inductive DriveRes where
  | ok (r : Request) (total : Nat) (buf : Bytes)
  | err (r : Request) (e : PErr)
deriving DecidableEq, Repr

/-- Drive `parse` over a list of chunks, each call receiving the
unconsumed suffix of the previous call plus the next chunk (the
chunk-boundary harness of the spec's testable property). -/
def driveChunks (r : Request) (buf : Bytes) : List Bytes → DriveRes
  | [] => .ok r 0 buf
  | c :: cs =>
    match parse r (buf ++ c) with
    | .err r' e => .err r' e
    | .ok r' n =>
      match driveChunks r' ((buf ++ c).drop n) cs with
      | .ok r'' t buf' => .ok r'' (n + t) buf'
      | .err r'' e => .err r'' e

/-- One interaction with the response writer (`internal/response`):
a status line, a header block, or a body write. -/
inductive WEvent where
  | statusLine (code : Int)
  | headersBlock (h : Headers)
  | bodyWrite (b : Bytes)
deriving DecidableEq, Repr

/-- The response writer modelled as the ordered log of its writes. -/
abbrev WLog := List WEvent

/-- `HandlerFunc` of `internal/mux/mux.go`: a handler transforms the
writer log given the request. -/
abbrev HandlerFunc := WLog → Request → WLog

/-- `Middleware`: a handler-to-handler transform. -/
abbrev Middleware := HandlerFunc → HandlerFunc

/-- The descending-index loop inside `Chain`: for `i` from `len-1` down
to `0`, `handler = mws[i](handler)` (`chainLoop mws i h` performs the
iterations for indices `i-1, ..., 0`). -/
def chainLoop (mws : List Middleware) : Nat → HandlerFunc → HandlerFunc
  | 0, handler => handler
  | i + 1, handler => chainLoop mws i ((mws.getD i id) handler)

/-- `Chain` of `internal/mux/mux.go`: wrap the base handler with the
middlewares, applied in reverse declaration order. -/
def Chain (h : HandlerFunc) (mws : List Middleware) : HandlerFunc :=
  chainLoop mws mws.length h

/-- `route` of `internal/mux/mux.go`. -/
structure Route where
  method : Bytes
  handler : HandlerFunc
  parts : List Bytes

/-- `Mux` of `internal/mux/mux.go`. -/
structure Mux where
  routes : List Route

/-- `NewMux`. -/
def NewMux : Mux := ⟨[]⟩

/-- `Mux.HandleFunc`: register a route, splitting the pattern on `/`
after trimming leading and trailing slashes. -/
def Mux.handleFunc (m : Mux) (method path : Bytes) (handler : HandlerFunc) : Mux :=
  ⟨m.routes ++ [{ method := method, handler := handler,
                  parts := splitOnChar '/' (trimChar '/' path) }]⟩

/-- The brace test of `Mux.ServeHTTP`'s inner loop:
`strings.HasPrefix(part, "\x7b") && strings.HasSuffix(part, "\x7d")`. -/
def isParamSeg (part : Bytes) : Bool :=
  startsWithChar '{' part && endsWithChar '}' part

/-- The parameter name of `Mux.ServeHTTP`'s inner loop:
`strings.Trim(part, "\x7b\x7d")`. -/
def paramName (part : Bytes) : Bytes :=
  trimCutset ['{', '}'] part

/-- Go `params[name] = value` on the association-list model: overwrite
in place when present, append otherwise. -/
def paramsInsert (params : List (Bytes × Bytes)) (name value : Bytes) :
    List (Bytes × Bytes) :=
  match params with
  | [] => [(name, value)]
  | (k, v) :: rest =>
    if k = name then (k, value) :: rest
    else (k, v) :: paramsInsert rest name value

/-- The inner segment loop of `Mux.ServeHTTP`: walk the registered parts
and the request parts together, binding parameter segments and requiring
literal segments to match exactly; reports the match flag and the bound
parameters. -/
def matchParts : List Bytes → List Bytes → List (Bytes × Bytes) →
    Bool × List (Bytes × Bytes)
  | [], _, params => (true, params)
  | _ :: _, [], params => (false, params)
  | part :: ps, seg :: ss, params =>
    if isParamSeg part then matchParts ps ss (paramsInsert params (paramName part) seg)
    else if part = seg then matchParts ps ss params
    else (false, params)

/-- The not-found tail of `Mux.ServeHTTP`: status 404, the default
headers with Content-length and Content-type replaced, and the
`404 Not Found` body. -/
def notFoundWriter (w : WLog) : WLog :=
  let h := (((NewHeaders.set "Content-Length".toList "0".toList).set
      "Connection".toList "close".toList).set
      "Content-Type".toList "text/plain".toList)
  let h := (h.replace "Content-length".toList "13".toList).replace
      "Content-type".toList "text/plain".toList
  w ++ [.statusLine 404, .headersBlock h, .bodyWrite "404 Not Found".toList]

/-- The route-scanning loop of `Mux.ServeHTTP` over the remaining
routes. -/
def serveLoop (requestParts : List Bytes) (w : WLog) (r : Request) :
    List Route → WLog
  | [] => notFoundWriter w
  | route :: rest =>
    if route.method ≠ r.requestLine.method then serveLoop requestParts w r rest
    else if route.parts.length ≠ requestParts.length then serveLoop requestParts w r rest
    else
      match matchParts route.parts requestParts [] with
      | (true, params) => route.handler w { r with pathParams := params }
      | (false, _) => serveLoop requestParts w r rest

/-- `Mux.ServeHTTP`: split the request target on `/` after trimming
slashes, scan the routes in registration order, dispatch to the first
full match with the bound parameters written into the request, and
produce the not-found response when no route matches. -/
def Mux.serveHTTP (m : Mux) (w : WLog) (r : Request) : WLog :=
  serveLoop (splitOnChar '/' (trimChar '/' r.requestLine.requestTarget)) w r m.routes

/-- A base handler that appends one marker to the shared ordered log. -/
def logHandler (name : Bytes) : HandlerFunc :=
  fun w _ => w ++ [.bodyWrite name]

/-- A logging middleware: appends a `-before` marker, runs the next
handler, then appends an `-after` marker (the shared ordered log of the
spec's middleware-order property). -/
def logMw (name : Bytes) : Middleware :=
  fun next => fun w r =>
    next (w ++ [.bodyWrite (name ++ "-before".toList)]) r ++
      [.bodyWrite (name ++ "-after".toList)]

theorem chainLoop_take (mws : List Middleware) :
    ∀ i, i ≤ mws.length → ∀ h : HandlerFunc,
      chainLoop mws i h = (mws.take i).foldr (fun m acc => m acc) h := by
  intro i
  induction i with
  | zero => intro _ h; simp [chainLoop]
  | succ i ih =>
    intro hle h
    have hi : i < mws.length := Nat.lt_of_succ_le hle
    rw [chainLoop, ih (Nat.le_of_lt hi)]
    have hgd : mws.getD i id = mws[i] := List.getD_eq_getElem mws id hi
    rw [hgd, List.take_succ, List.getElem?_eq_getElem hi]
    rw [List.foldr_append]
    rfl

theorem chain_foldr (h : HandlerFunc) (mws : List Middleware) :
    Chain h mws = mws.foldr (fun m acc => m acc) h := by
  rw [Chain, chainLoop_take mws mws.length (Nat.le_refl _) h, List.take_length]

theorem foldr_logMw :
    ∀ (names : List Bytes) (base : Bytes) (w : WLog) (r : Request),
      (names.map logMw).foldr (fun m acc => m acc) (logHandler base) w r =
        w ++ names.map (fun n => WEvent.bodyWrite (n ++ "-before".toList))
          ++ [WEvent.bodyWrite base]
          ++ names.reverse.map (fun n => WEvent.bodyWrite (n ++ "-after".toList)) := by
  intro names
  induction names with
  | nil => intro base w r; simp [logHandler]
  | cons n ns ih =>
    intro base w r
    simp only [List.map_cons, List.foldr_cons, logMw]
    rw [ih base (w ++ [WEvent.bodyWrite (n ++ "-before".toList)]) r]
    simp [List.append_assoc]

/-- C4: `Chain(h, m1, ..., mn)` equals the nested application
`m1 (m2 (... (mn h) ...))` (the fold from the right), and consequently a
chain of logging middlewares executes, on any request, the before-logic
in declaration order, then the base handler, then the after-logic in
reverse declaration order: the first-declared middleware is the
outermost wrapper. -/
theorem chain_composition_order :
    (∀ (h : HandlerFunc) (mws : List Middleware),
        Chain h mws = mws.foldr (fun m acc => m acc) h) ∧
    (∀ (names : List Bytes) (base : Bytes) (w : WLog) (r : Request),
        Chain (logHandler base) (names.map logMw) w r =
          w ++ names.map (fun n => WEvent.bodyWrite (n ++ "-before".toList))
            ++ [WEvent.bodyWrite base]
            ++ names.reverse.map (fun n => WEvent.bodyWrite (n ++ "-after".toList))) := by
  refine ⟨chain_foldr, ?_⟩
  intro names base w r
  rw [chain_foldr (logHandler base) (names.map logMw)]
  exact foldr_logMw names base w r

/-- The claim's route-matching criterion, stated independently of the
scanning loop: the method matches, the segment counts agree, and
segment-by-segment a parameter segment always matches while a literal
segment must equal the request segment exactly. -/
def specRouteMatches (rt : Route) (method : Bytes) (segs : List Bytes) : Bool :=
  rt.method = method && rt.parts.length = segs.length &&
    (rt.parts.zip segs).all (fun ps => isParamSeg ps.1 || ps.1 = ps.2)

/-- The claim's parameter bindings: each parameter segment's name bound
to the corresponding request segment, later duplicates overwriting. -/
def specBindings (parts segs : List Bytes) : List (Bytes × Bytes) :=
  (parts.zip segs).foldl
    (fun acc ps => if isParamSeg ps.1 then paramsInsert acc (paramName ps.1) ps.2 else acc) []

theorem matchParts_fst :
    ∀ (parts segs : List Bytes) (acc : List (Bytes × Bytes)),
      parts.length = segs.length →
      (matchParts parts segs acc).1 =
        (parts.zip segs).all (fun ps => isParamSeg ps.1 || ps.1 = ps.2) := by
  intro parts
  induction parts with
  | nil =>
    intro segs acc hlen
    cases segs with
    | nil => simp [matchParts]
    | cons s ss => simp at hlen
  | cons p ps ih =>
    intro segs acc hlen
    cases segs with
    | nil => simp at hlen
    | cons s ss =>
      simp only [List.length_cons, Nat.succ.injEq] at hlen
      simp only [matchParts, List.zip_cons_cons, List.all_cons]
      by_cases hp : isParamSeg p = true
      · rw [if_pos hp, ih ss _ hlen]
        simp [hp]
      · rw [if_neg hp]
        by_cases heq : p = s
        · rw [if_pos heq, ih ss _ hlen]
          simp only [Bool.eq_false_iff, ne_eq] at hp
          simp [hp, heq]
        · rw [if_neg heq]
          simp only [Bool.eq_false_iff, ne_eq] at hp
          simp [hp, heq]

theorem matchParts_snd :
    ∀ (parts segs : List Bytes) (acc : List (Bytes × Bytes)),
      parts.length = segs.length →
      (matchParts parts segs acc).1 = true →
      (matchParts parts segs acc).2 =
        (parts.zip segs).foldl
          (fun acc ps =>
            if isParamSeg ps.1 then paramsInsert acc (paramName ps.1) ps.2 else acc)
          acc := by
  intro parts
  induction parts with
  | nil =>
    intro segs acc hlen _
    cases segs with
    | nil => simp [matchParts]
    | cons s ss => simp at hlen
  | cons p ps ih =>
    intro segs acc hlen htrue
    cases segs with
    | nil => simp at hlen
    | cons s ss =>
      simp only [List.length_cons, Nat.succ.injEq] at hlen
      simp only [matchParts, List.zip_cons_cons, List.foldl_cons]
      simp only [matchParts] at htrue
      by_cases hp : isParamSeg p = true
      · rw [if_pos hp] at htrue ⊢
        rw [ih ss _ hlen htrue]
        simp [hp]
      · rw [if_neg hp] at htrue ⊢
        by_cases heq : p = s
        · rw [if_pos heq] at htrue ⊢
          rw [ih ss _ hlen htrue]
          simp [hp]
        · rw [if_neg heq] at htrue
          simp [matchParts] at htrue

/-- The request-path segments used by `Mux.ServeHTTP`. -/
def requestSegs (r : Request) : List Bytes :=
  splitOnChar '/' (trimChar '/' r.requestLine.requestTarget)

theorem serveLoop_skip (segs : List Bytes) (w : WLog) (r : Request)
    (rt : Route) (routes : List Route)
    (hno : specRouteMatches rt r.requestLine.method segs = false) :
    serveLoop segs w r (rt :: routes) = serveLoop segs w r routes := by
  rw [serveLoop]
  by_cases hm : rt.method = r.requestLine.method
  · rw [if_neg (by simp [hm])]
    by_cases hl : rt.parts.length = segs.length
    · rw [if_neg (by simp [hl])]
      have hfst : (matchParts rt.parts segs []).1 = false := by
        rw [matchParts_fst rt.parts segs [] hl]
        simp only [specRouteMatches, hm, hl, decide_True, Bool.true_and] at hno
        exact hno
      have hrw : matchParts rt.parts segs [] =
          (false, (matchParts rt.parts segs []).2) := by
        rw [← hfst]
      rw [hrw]
    · rw [if_pos (by simp [hl])]
  · rw [if_pos (by simp [hm])]

theorem serveLoop_hit (segs : List Bytes) (w : WLog) (r : Request)
    (rt : Route) (routes : List Route)
    (hyes : specRouteMatches rt r.requestLine.method segs = true) :
    serveLoop segs w r (rt :: routes) =
      rt.handler w { r with pathParams := specBindings rt.parts segs } := by
  simp only [specRouteMatches, Bool.and_eq_true, decide_eq_true_eq] at hyes
  obtain ⟨⟨hm, hl⟩, hall⟩ := hyes
  rw [serveLoop]
  rw [if_neg (by simp [hm]), if_neg (by simp [hl])]
  have hfst : (matchParts rt.parts segs []).1 = true := by
    rw [matchParts_fst rt.parts segs [] hl]; exact hall
  have hsnd := matchParts_snd rt.parts segs [] hl hfst
  have hrw : matchParts rt.parts segs [] =
      (true, specBindings rt.parts segs) := by
    rw [specBindings, ← hsnd, ← hfst]
  rw [hrw]

/-- C3: `ServeHTTP` splits the request target into segments (trimming
slashes, splitting on `/`), scans the registered routes in registration
order, skips routes whose method or segment count differ, matches
literal segments by exact equality and parameter segments always
(binding the request segment under the parameter's name), invokes the
first fully matching route's handler with all bound parameters written
into the request's `pathParams` (first full match wins), and produces
the not-found response itself when no route fully matches. -/
theorem serveHTTP_dispatch (m : Mux) (w : WLog) (r : Request) :
    (∀ (pre : List Route) (rt : Route) (post : List Route),
        m.routes = pre ++ rt :: post →
        specRouteMatches rt r.requestLine.method (requestSegs r) = true →
        (∀ rt' ∈ pre,
          specRouteMatches rt' r.requestLine.method (requestSegs r) = false) →
        m.serveHTTP w r =
          rt.handler w
            { r with pathParams := specBindings rt.parts (requestSegs r) }) ∧
    ((∀ rt ∈ m.routes,
        specRouteMatches rt r.requestLine.method (requestSegs r) = false) →
      m.serveHTTP w r = notFoundWriter w) := by
  constructor
  · intro pre rt post hsplit hyes hpre
    show serveLoop (requestSegs r) w r m.routes = _
    rw [hsplit]
    clear hsplit
    induction pre with
    | nil => exact serveLoop_hit _ w r rt post hyes
    | cons rt' pre' ih =>
      rw [List.cons_append, serveLoop_skip _ w r rt' _ (hpre rt' (by simp))]
      exact ih (fun x hx => hpre x (by simp [hx]))
  · intro hnone
    show serveLoop (requestSegs r) w r m.routes = _
    revert hnone
    generalize m.routes = l
    induction l with
    | nil => intro _; rfl
    | cons rt rest ih =>
      intro hnone
      rw [serveLoop_skip _ w r rt rest (hnone rt (by simp))]
      exact ih (fun x hx => hnone x (by simp [hx]))

/-- A handler that reveals the bound path parameters in the log. -/
def probeHandler : HandlerFunc :=
  fun w r => w ++ r.pathParams.map (fun kv => WEvent.bodyWrite (kv.1 ++ '=' :: kv.2))

/-- The route registered by `HandleFunc("GET", "/a/\x7bx\x7d", probeHandler)`. -/
def routeAX : Route :=
  { method := "GET".toList, handler := probeHandler
    parts := splitOnChar '/' (trimChar '/' "/a/{x}".toList) }

/-- The route registered by `HandleFunc("GET", "/a/b", probeHandler)`. -/
def routeAB : Route :=
  { method := "GET".toList, handler := probeHandler
    parts := splitOnChar '/' (trimChar '/' "/a/b".toList) }

/-- The mux with `GET /a/\x7bx\x7d` registered before `GET /a/b`. -/
def mux3 : Mux :=
  (NewMux.handleFunc "GET".toList "/a/{x}".toList probeHandler).handleFunc
    "GET".toList "/a/b".toList probeHandler

/-- The decoded request `GET /a/b`. -/
def req3 : Request :=
  { newRequest with
      requestLine :=
        { httpVersion := "1.1".toList, requestTarget := "/a/b".toList
          method := "GET".toList } }

theorem serveHTTP_dispatch_witness :
    mux3.serveHTTP [] req3 = [WEvent.bodyWrite ('x' :: '=' :: 'b' :: [])] := by
  have h := (serveHTTP_dispatch mux3 [] req3).1 [] routeAX [routeAB]
    (by rfl) (by decide) (by intro rt' hmem; exact absurd hmem (List.not_mem_nil rt'))
  rw [h]
  decide

/-- The bound name the claim's wording assigns to a parameter segment:
the text strictly inside the single wrapping pair of delimiters. -/
def singlePairInside (l : Bytes) : Bytes := (l.drop 1).dropLast

/-- C8 counterexample: the doubly-wrapped segment
`\x7b\x7bid\x7d\x7d` starts with one brace and ends with one, so the
code treats it as a parameter, but it binds the name `id` (all leading
and trailing braces stripped), not the text `\x7bid\x7d` inside the
single outer pair as the claim states; dispatching `GET /a/v` against
the registered pattern `/a/\x7b\x7bid\x7d\x7d` records the request
segment under `id`. -/
theorem param_single_pair_counterexample :
    isParamSeg ['{', '{', 'i', 'd', '}', '}'] = true ∧
    paramName ['{', '{', 'i', 'd', '}', '}'] = ['i', 'd'] ∧
    singlePairInside ['{', '{', 'i', 'd', '}', '}'] = ['{', 'i', 'd', '}'] ∧
    paramName ['{', '{', 'i', 'd', '}', '}'] ≠
      singlePairInside ['{', '{', 'i', 'd', '}', '}'] ∧
    (NewMux.handleFunc "GET".toList
        ('/' :: 'a' :: '/' :: '{' :: '{' :: 'i' :: 'd' :: '}' :: '}' :: [])
        probeHandler).serveHTTP []
      { newRequest with
          requestLine :=
            { httpVersion := "1.1".toList, requestTarget := "/a/v".toList
              method := "GET".toList } } =
      [WEvent.bodyWrite ('i' :: 'd' :: '=' :: 'v' :: [])] := by
  decide

theorem contains_false_dropWhile_eq (c : Char) :
    ∀ l : Bytes, containsChar c l = false → l.dropWhile (· = c) = l := by
  intro l hl
  cases l with
  | nil => rfl
  | cons x xs =>
    simp only [containsChar, List.contains_cons, Bool.or_eq_false_iff,
      beq_eq_false_iff_ne, ne_eq] at hl
    rw [List.dropWhile_cons, if_neg]
    simp only [decide_eq_true_eq]
    exact fun hxc => hl.1 hxc.symm

theorem contains_false_reverse (c : Char) (l : Bytes)
    (hl : containsChar c l = false) : containsChar c l.reverse = false := by
  simp only [containsChar, List.contains, List.elem_eq_mem,
    decide_eq_false_iff_not, List.mem_reverse] at hl ⊢
  exact hl

theorem trimChar_no_contains (c : Char) (l : Bytes)
    (hl : containsChar c l = false) : trimChar c l = l := by
  rw [trimChar, contains_false_dropWhile_eq c l hl,
    contains_false_dropWhile_eq c l.reverse (contains_false_reverse c l hl),
    List.reverse_reverse]

theorem trimChar_cons_no_contains (c : Char) (l : Bytes)
    (hl : containsChar c l = false) : trimChar c (c :: l) = l := by
  rw [trimChar, List.dropWhile_cons, if_pos (by simp),
    contains_false_dropWhile_eq c l hl,
    contains_false_dropWhile_eq c l.reverse (contains_false_reverse c l hl),
    List.reverse_reverse]

theorem splitOnChar_no_sep (sep : Char) :
    ∀ l : Bytes, containsChar sep l = false → splitOnChar sep l = [l] := by
  intro l
  induction l with
  | nil => intro _; rfl
  | cons x xs ih =>
    intro hl
    simp only [containsChar, List.contains_cons, Bool.or_eq_false_iff,
      beq_eq_false_iff_ne, ne_eq] at hl
    rw [splitOnChar, ih hl.2]
    show (if x = sep then [] :: xs :: [] else (x :: xs) :: []) = [x :: xs]
    rw [if_neg (fun hxs => hl.1 hxs.symm)]

theorem startsWithChar_iff_head? (c : Char) (l : Bytes) :
    startsWithChar c l = true ↔ l.head? = some c := by
  cases l with
  | nil => simp [startsWithChar]
  | cons x xs => simp [startsWithChar]

theorem endsWithChar_iff_getLast? (c : Char) (l : Bytes) :
    endsWithChar c l = true ↔ l.getLast? = some c := by
  rw [endsWithChar, startsWithChar_iff_head?, List.head?_reverse]

/-- C8 (amended): for a single-segment pattern and request path, the
segment is treated as a path parameter exactly when it begins with a
brace and ends with a brace (any such segment, not only a single
matched pair), the bound name being the segment with all leading and
trailing brace characters stripped; any other segment is a literal
compared by exact equality, and a failed literal comparison falls
through to the not-found response. -/
theorem param_classification (part seg : Bytes) (h : HandlerFunc) (w : WLog)
    (r : Request)
    (hpc : containsChar '/' part = false) (hsc : containsChar '/' seg = false)
    (hm : r.requestLine.method = "GET".toList)
    (ht : r.requestLine.requestTarget = '/' :: seg) :
    (NewMux.handleFunc "GET".toList ('/' :: part) h).serveHTTP w r =
      (if part.head? = some '{' ∧ part.getLast? = some '}' then
        h w { r with pathParams := [(trimCutset ['{', '}'] part, seg)] }
      else if part = seg then h w { r with pathParams := [] }
      else notFoundWriter w) := by
  have hparts : splitOnChar '/' (trimChar '/' ('/' :: part)) = [part] := by
    rw [trimChar_cons_no_contains '/' part hpc, splitOnChar_no_sep '/' part hpc]
  have hsegs : requestSegs r = [seg] := by
    rw [requestSegs, ht, trimChar_cons_no_contains '/' seg hsc,
      splitOnChar_no_sep '/' seg hsc]
  show serveLoop (requestSegs r) w r _ = _
  rw [hsegs]
  show serveLoop [seg] w r
      [{ method := "GET".toList, handler := h,
         parts := splitOnChar '/' (trimChar '/' ('/' :: part)) }] = _
  rw [serveLoop]
  simp only [hparts]
  rw [if_neg (by simp [hm]), if_neg (by simp)]
  show (match matchParts [part] [seg] [] with
        | (true, params) => h w { r with pathParams := params }
        | (false, _) => serveLoop [seg] w r []) = _
  rw [matchParts]
  by_cases hb : part.head? = some '{' ∧ part.getLast? = some '}'
  · have hip : isParamSeg part = true := by
      rw [isParamSeg, Bool.and_eq_true, startsWithChar_iff_head?,
        endsWithChar_iff_getLast?]
      exact hb
    rw [if_pos hip, if_pos hb]
    rfl
  · have hip : isParamSeg part = false := by
      rw [← Bool.not_eq_true, isParamSeg, Bool.and_eq_true, startsWithChar_iff_head?,
        endsWithChar_iff_getLast?]
      exact hb
    rw [if_neg (by simp [hip]), if_neg hb]
    by_cases heq : part = seg
    · rw [if_pos heq, if_pos heq]
      rfl
    · rw [if_neg heq, if_neg heq]
      rfl

theorem param_classification_witness :
    (NewMux.handleFunc "GET".toList ('/' :: '{' :: 'x' :: '}' :: []) probeHandler).serveHTTP []
      { newRequest with
          requestLine :=
            { httpVersion := "1.1".toList, requestTarget := ['/', 'b']
              method := "GET".toList } } =
      [WEvent.bodyWrite ('x' :: '=' :: 'b' :: [])] := by
  rw [param_classification (['{', 'x', '}']) (['b']) probeHandler []
    _ (by decide) (by decide) (by decide) (by decide)]
  decide

theorem crlfIndex_bound :
    ∀ (l : Bytes) (i : Nat), crlfIndex l = some i → i + 2 ≤ l.length := by
  intro l
  induction l with
  | nil => intro i h; simp [crlfIndex] at h
  | cons c rest ih =>
    intro i h
    rw [crlfIndex] at h
    by_cases hc : c = '\r' ∧ rest.head? = some '\n'
    · rw [if_pos hc] at h
      cases h
      cases rest with
      | nil => simp at hc
      | cons x xs => simp
    · rw [if_neg hc] at h
      rcases Option.map_eq_some'.mp h with ⟨j, hj, hji⟩
      have := ih j hj
      simp only [List.length_cons]
      omega

theorem crlfIndex_append (l ext : Bytes) (i : Nat) (h : crlfIndex l = some i) :
    crlfIndex (l ++ ext) = some i := by
  induction l generalizing i with
  | nil => simp [crlfIndex] at h
  | cons c rest ih =>
    rw [crlfIndex] at h
    rw [List.cons_append, crlfIndex]
    by_cases hc : c = '\r' ∧ rest.head? = some '\n'
    · rw [if_pos hc] at h
      have hrest : (rest ++ ext).head? = some '\n' := by
        cases rest with
        | nil => simp at hc
        | cons x xs => simpa using hc.2
      rw [if_pos ⟨hc.1, hrest⟩]
      exact h
    · rw [if_neg hc] at h
      rcases Option.map_eq_some'.mp h with ⟨j, hj, hji⟩
      have hrestne : rest ≠ [] := by
        intro hemp; rw [hemp] at hj; simp [crlfIndex] at hj
      have hc' : ¬(c = '\r' ∧ (rest ++ ext).head? = some '\n') := by
        intro ⟨h1, h2⟩
        apply hc
        refine ⟨h1, ?_⟩
        cases rest with
        | nil => exact absurd rfl hrestne
        | cons x xs => simpa using h2
      rw [if_neg hc', ih j hj]
      simpa using hji

theorem hpF_irrel :
    ∀ (f1 f2 : Nat) (h : Headers) (data : Bytes),
      data.length < f1 → data.length < f2 → hpF f1 h data = hpF f2 h data := by
  intro f1
  induction f1 with
  | zero => intro f2 h data h1 _; exact absurd h1 (Nat.not_lt_zero _)
  | succ f ih =>
    intro f2 h data h1 h2
    cases f2 with
    | zero => exact absurd h2 (Nat.not_lt_zero _)
    | succ g =>
      rw [hpF, hpF]
      cases hcr : crlfIndex data with
      | none => rfl
      | some i =>
        cases i with
        | zero => rfl
        | succ i =>
          have hb := crlfIndex_bound data (i + 1) hcr
          dsimp only
          cases hpl : parseHeaderLine (List.take (i + 1) data) with
          | error e => rfl
          | ok nv =>
            rcases nv with ⟨name, value⟩
            dsimp only
            by_cases ht : isToken name
            · rw [if_pos ht, if_pos ht]
              rw [ih g (h.set name value) (List.drop (i + 1 + 2) data)
                (by simp only [List.length_drop]; omega)
                (by simp only [List.length_drop]; omega)]
            · rw [if_neg ht, if_neg ht]

theorem headersParse_unfold (h : Headers) (data : Bytes) :
    headersParse h data =
      match crlfIndex data with
      | none => .okHp h 0 false
      | some 0 => .okHp h 2 true
      | some (i + 1) =>
        match parseHeaderLine (data.take (i + 1)) with
        | .error e => .err h e
        | .ok (name, value) =>
          if isToken name then
            match headersParse (h.set name value) (data.drop (i + 1 + 2)) with
            | .err h' e => .err h' e
            | .okHp h' m d => .okHp h' (i + 1 + 2 + m) d
          else .err h .malformedHeaderName := by
  rw [headersParse, hpF]
  cases hcr : crlfIndex data with
  | none => rfl
  | some i =>
    cases i with
    | zero => rfl
    | succ i =>
      have hb := crlfIndex_bound data (i + 1) hcr
      dsimp only
      cases hpl : parseHeaderLine (List.take (i + 1) data) with
      | error e => rfl
      | ok nv =>
        rcases nv with ⟨name, value⟩
        dsimp only
        by_cases ht : isToken name
        · rw [if_pos ht, if_pos ht]
          rw [hpF_irrel data.length ((List.drop (i + 1 + 2) data).length + 1)
            (h.set name value) (List.drop (i + 1 + 2) data)
            (by simp only [List.length_drop]; omega)
            (by simp only [List.length_drop]; omega)]
          rfl
        · rw [if_neg ht, if_neg ht]

theorem headersParse_read_le :
    ∀ (N : Nat) (h : Headers) (data : Bytes), data.length ≤ N →
      ∀ h' n d, headersParse h data = .okHp h' n d → n ≤ data.length := by
  intro N
  induction N with
  | zero =>
    intro h data hlen h' n d heq
    have hdata : data = [] := List.eq_nil_of_length_eq_zero (Nat.le_zero.mp hlen)
    subst hdata
    rw [headersParse_unfold] at heq
    simp only [crlfIndex] at heq
    cases heq
    exact Nat.le_refl 0
  | succ N ih =>
    intro h data hlen h' n d heq
    rw [headersParse_unfold] at heq
    cases hcr : crlfIndex data with
    | none => rw [hcr] at heq; cases heq; exact Nat.zero_le _
    | some i =>
      rw [hcr] at heq
      have hb := crlfIndex_bound data i hcr
      cases i with
      | zero => cases heq; omega
      | succ i =>
        dsimp only at heq
        cases hpl : parseHeaderLine (List.take (i + 1) data) with
        | error e => rw [hpl] at heq; cases heq
        | ok nv =>
          rcases nv with ⟨name, value⟩
          rw [hpl] at heq
          dsimp only at heq
          by_cases ht : isToken name
          · rw [if_pos ht] at heq
            cases hin : headersParse (h.set name value) (List.drop (i + 1 + 2) data) with
            | err h2 e => rw [hin] at heq; cases heq
            | okHp h2 m d2 =>
              rw [hin] at heq
              injection heq with e1 e2 e3
              have hm := ih (h.set name value) (List.drop (i + 1 + 2) data)
                (by simp only [List.length_drop]; omega) h2 m d2 hin
              simp only [List.length_drop] at hm
              omega
          · rw [if_neg ht] at heq; cases heq

theorem parseRequestLine_okLine_inv (b : Bytes) (rl : RequestLine) (n : Nat)
    (h : parseRequestLine b = .okLine rl n) :
    ∃ idx, crlfIndex b = some idx ∧ n = idx + 2 := by
  rw [parseRequestLine] at h
  cases hcr : crlfIndex b with
  | none => rw [hcr] at h; cases h
  | some idx =>
    rw [hcr] at h
    dsimp only at h
    refine ⟨idx, rfl, ?_⟩
    split_ifs at h with h1 h2
    injection h with _ hn
    exact hn.symm

theorem parseIter_stepped_le (r : Request) (data : Bytes) (r' : Request) (n : Nat)
    (h : parseIter r data = .stepped r' n) : n ≤ data.length := by
  rw [parseIter] at h
  cases hst : r.state <;> rw [hst] at h <;> dsimp only at h
  · cases hrl : parseRequestLine data with
    | needMore => rw [hrl] at h; cases h
    | malformed => rw [hrl] at h; cases h
    | okLine rl m =>
      rw [hrl] at h
      injection h with _ hn
      subst hn
      rcases parseRequestLine_okLine_inv data rl m hrl with ⟨idx, hidx, hm⟩
      have := crlfIndex_bound data idx hidx
      omega
  · cases hhp : headersParse r.headers data with
    | err h2 e => rw [hhp] at h; cases h
    | okHp h2 m dn =>
      rw [hhp] at h
      dsimp only at h
      by_cases hm : m = 0
      · rw [if_pos hm] at h; cases h
      · rw [if_neg hm] at h
        injection h with _ hn
        subst hn
        exact headersParse_read_le data.length r.headers data (Nat.le_refl _) h2 m dn hhp
  · by_cases h1 : getInt r.headers contentLengthKey 0 = 0
    · rw [if_pos h1] at h; cases h
    · rw [if_neg h1] at h
      by_cases h2 : getInt r.headers contentLengthKey 0 - (r.body.length : Int) < 0
      · rw [if_pos h2] at h; cases h
      · rw [if_neg h2] at h
        injection h with _ hn
        subst hn
        exact Nat.min_le_right _ _
  · cases h
  · cases h

theorem parseLoopF_irrel :
    ∀ (f1 f2 : Nat) (r : Request) (data : Bytes),
      data.length < f1 → data.length < f2 →
      parseLoopF f1 r data = parseLoopF f2 r data := by
  intro f1
  induction f1 with
  | zero => intro f2 r data h1 _; exact absurd h1 (Nat.not_lt_zero _)
  | succ f ih =>
    intro f2 r data h1 h2
    cases f2 with
    | zero => exact absurd h2 (Nat.not_lt_zero _)
    | succ g =>
      rw [parseLoopF, parseLoopF]
      by_cases he : data.isEmpty
      · rw [if_pos he, if_pos he]
      · rw [if_neg he, if_neg he]
        cases hit : parseIter r data with
        | broke => rfl
        | errored r' e => rfl
        | stepped r' n =>
          dsimp only
          by_cases hn : n = 0
          · rw [if_pos hn, if_pos hn]
          · rw [if_neg hn, if_neg hn]
            have hlen : 1 ≤ data.length := by
              cases data with
              | nil => simp at he
              | cons x xs => simp
            rw [ih g r' (List.drop n data)
              (by simp only [List.length_drop]; omega)
              (by simp only [List.length_drop]; omega)]

theorem parse_unfold (r : Request) (data : Bytes) :
    parse r data =
      if data.isEmpty then .ok r 0
      else
        match parseIter r data with
        | .broke => .ok r 0
        | .errored r' e => .err r' e
        | .stepped r' n =>
          if n = 0 then .ok r' 0 else withRead (parse r' (data.drop n)) n := by
  rw [parse, parseLoopF]
  by_cases he : data.isEmpty
  · rw [if_pos he, if_pos he]
  · rw [if_neg he, if_neg he]
    cases hit : parseIter r data with
    | broke => rfl
    | errored r' e => rfl
    | stepped r' n =>
      dsimp only
      by_cases hn : n = 0
      · rw [if_pos hn, if_pos hn]
      · rw [if_neg hn, if_neg hn]
        have hlen : 1 ≤ data.length := by
          cases data with
          | nil => simp at he
          | cons x xs => simp
        rw [parseLoopF_irrel data.length ((List.drop n data).length + 1) r'
          (List.drop n data)
          (by simp only [List.length_drop]; omega)
          (by simp only [List.length_drop]; omega)]
        rfl

theorem parse_read_le :
    ∀ (N : Nat) (r : Request) (data : Bytes), data.length ≤ N →
      ∀ r' n, parse r data = .ok r' n → n ≤ data.length := by
  intro N
  induction N with
  | zero =>
    intro r data hlen r' n heq
    have hdata : data = [] := List.eq_nil_of_length_eq_zero (Nat.le_zero.mp hlen)
    subst hdata
    rw [parse_unfold] at heq
    simp only [List.isEmpty_nil, if_true] at heq
    injection heq with _ hn
    omega
  | succ N ih =>
    intro r data hlen r' n heq
    rw [parse_unfold] at heq
    by_cases he : data.isEmpty
    · rw [if_pos he] at heq
      injection heq with _ hn
      omega
    · rw [if_neg he] at heq
      cases hit : parseIter r data with
      | broke => rw [hit] at heq; injection heq with _ hn; omega
      | errored r2 e => rw [hit] at heq; cases heq
      | stepped r2 m =>
        rw [hit] at heq
        dsimp only at heq
        by_cases hm : m = 0
        · rw [if_pos hm] at heq
          injection heq with _ hn
          omega
        · rw [if_neg hm] at heq
          cases hin : parse r2 (List.drop m data) with
          | err r3 e => rw [hin] at heq; cases heq
          | ok r3 k =>
            rw [hin] at heq
            injection heq with _ hn
            have hk := ih r2 (List.drop m data)
              (by simp only [List.length_drop]; omega) r3 k hin
            simp only [List.length_drop] at hk
            have hmle := parseIter_stepped_le r data r2 m hit
            omega

theorem parse_done (r : Request) (data : Bytes) (hst : r.state = .stateDone) :
    parse r data = .ok r 0 := by
  rw [parse_unfold]
  by_cases he : data.isEmpty
  · rw [if_pos he]
  · rw [if_neg he]
    have hit : parseIter r data = .broke := by
      rw [parseIter, hst]
    rw [hit]

/-- C5: when the first CRLF-terminated line of the buffer does not split
on single spaces into exactly three tokens, or its third token does not
split on `/` into `HTTP` and `1.1`, the decoder starting in the Init
state moves to the Error state failing with the malformed-request-line
error, and `RequestFromReader` returns the error with no partial
Request. -/
theorem malformed_request_line (data : Bytes) (idx : Nat)
    (hline : crlfIndex data = some idx)
    (hbad : (splitOnChar ' ' (data.take idx)).length ≠ 3 ∨
      ¬((splitOnChar '/' ((splitOnChar ' ' (data.take idx)).getD 2 [])).length = 2 ∧
        (splitOnChar '/' ((splitOnChar ' ' (data.take idx)).getD 2 [])).getD 0 [] =
          "HTTP".toList ∧
        (splitOnChar '/' ((splitOnChar ' ' (data.take idx)).getD 2 [])).getD 1 [] =
          "1.1".toList)) :
    parse newRequest data =
      .err { newRequest with state := .stateError } .malformedRequestLine ∧
    RequestFromReader [data] = .error (.parseErr .malformedRequestLine) := by
  have hmal : parseRequestLine data = .malformed := by
    rw [parseRequestLine, hline]
    dsimp only
    by_cases h3 : (splitOnChar ' ' (data.take idx)).length = 3
    · rw [if_pos h3]
      rcases hbad with hb | hb
      · exact absurd h3 hb
      · rw [if_neg hb]
    · rw [if_neg h3]
  have hne : data.isEmpty = false := by
    have := crlfIndex_bound data idx hline
    cases data with
    | nil => simp at this
    | cons x xs => simp
  have hiter : parseIter newRequest data =
      .errored { newRequest with state := .stateError } .malformedRequestLine := by
    rw [parseIter]
    show (match parseRequestLine data with
          | .needMore => IterRes.broke
          | .malformed =>
            .errored { newRequest with state := .stateError } .malformedRequestLine
          | .okLine rl n =>
            .stepped { newRequest with requestLine := rl, state := .stateHeaders } n) = _
    rw [hmal]
  have hparse : parse newRequest data =
      .err { newRequest with state := .stateError } .malformedRequestLine := by
    rw [parse_unfold, if_neg (by rw [hne]; exact Bool.false_ne_true), hiter]
  refine ⟨hparse, ?_⟩
  rw [RequestFromReader, rfrLoop, if_neg (by decide)]
  rw [List.nil_append, hparse]

theorem malformed_request_line_witness :
    parse newRequest "GET /x FOO/1.1\r\n\r\n".toList =
      .err { newRequest with state := .stateError } .malformedRequestLine ∧
    RequestFromReader ["GET /x FOO/1.1\r\n\r\n".toList] =
      .error (.parseErr .malformedRequestLine) :=
  malformed_request_line "GET /x FOO/1.1\r\n\r\n".toList 14 (by decide)
    (Or.inr (by decide))

/-- C6: whenever the header section completes (`Headers.Parse` reports
done), the decoder steps consuming exactly the header bytes, leaves the
body untouched, and moves to the Body state if and only if the completed
table's Content-Length header is present and parses as a positive
integer — otherwise (absent, zero, negative, or unparsable) it moves
directly to Done, and a Done decoder consumes no further bytes. -/
theorem content_length_transition (r : Request) (data : Bytes) (h' : Headers)
    (n : Nat) (hst : r.state = .stateHeaders)
    (hhp : headersParse r.headers data = .okHp h' n true) (hn : n ≠ 0) :
    (∃ r', parseIter r data = .stepped r' n ∧
      r'.headers = h' ∧ r'.body = r.body ∧
      (r'.state = .stateBody ∨ r'.state = .stateDone) ∧
      (r'.state = .stateBody ↔
        ∃ v i, h'.get contentLengthKey = some v ∧ atoi? v = some i ∧ 0 < i)) ∧
    (∀ (r0 : Request) (d : Bytes), r0.state = .stateDone → parse r0 d = .ok r0 0) := by
  refine ⟨?_, parse_done⟩
  refine ⟨{ r with headers := h'
                   state := if Request.hasBody { r with headers := h' } then .stateBody
                            else .stateDone }, ?_, rfl, rfl, ?_, ?_⟩
  · rw [parseIter, hst]
    dsimp only
    rw [hhp]
    dsimp only
    rw [if_neg hn, if_pos rfl]
  · dsimp only
    by_cases hb : Request.hasBody { r with headers := h' }
    · rw [if_pos hb]; exact Or.inl rfl
    · rw [if_neg hb]; exact Or.inr rfl
  · dsimp only
    have hget : Request.hasBody { r with headers := h' } =
        decide (0 < getInt h' contentLengthKey 0) := rfl
    by_cases hb : Request.hasBody { r with headers := h' }
    · rw [if_pos hb]
      simp only [true_iff]
      rw [hget] at hb
      have hpos : 0 < getInt h' contentLengthKey 0 := of_decide_eq_true hb
      cases hv : h'.get contentLengthKey with
      | none =>
        rw [getInt, hv] at hpos
        dsimp only at hpos
        exact absurd hpos (by omega)
      | some v =>
        cases ha : atoi? v with
        | none =>
          rw [getInt, hv] at hpos
          dsimp only at hpos
          rw [ha] at hpos
          dsimp only at hpos
          exact absurd hpos (by omega)
        | some i =>
          rw [getInt, hv] at hpos
          dsimp only at hpos
          rw [ha] at hpos
          dsimp only at hpos
          exact ⟨v, i, rfl, ha, hpos⟩
    · rw [if_neg hb]
      constructor
      · intro hcontra; cases hcontra
      · rintro ⟨v, i, hv, ha, hpos⟩
        rw [hget] at hb
        have hlt : 0 < getInt h' contentLengthKey 0 := by
          rw [getInt, hv]
          dsimp only
          rw [ha]
          exact hpos
        exact absurd (decide_eq_true hlt) hb

theorem content_length_transition_witness :
    (∃ r', parseIter { newRequest with state := .stateHeaders }
        "Content-Length: 0\r\n\r\n".toList = .stepped r' 21 ∧
      r'.headers = Headers.mk [("content-length".toList, "0".toList)] ∧
      r'.body = newRequest.body ∧
      (r'.state = .stateBody ∨ r'.state = .stateDone) ∧
      (r'.state = .stateBody ↔
        ∃ v i, (Headers.mk [("content-length".toList, "0".toList)]).get
            contentLengthKey = some v ∧ atoi? v = some i ∧ 0 < i)) ∧
    (∀ (r0 : Request) (d : Bytes), r0.state = .stateDone → parse r0 d = .ok r0 0) :=
  content_length_transition { newRequest with state := .stateHeaders }
    "Content-Length: 0\r\n\r\n".toList
    (Headers.mk [("content-length".toList, "0".toList)]) 21 rfl (by decide)
    (by decide)

theorem parse_nil (r : Request) : parse r [] = .ok r 0 := rfl

/-- C7: in the Body state with the body not yet complete, a parse call
consumes exactly `min(declaredLength - currentBodyLength,
availableBytes)` bytes, appends them to the body, reaches Done exactly
when the accumulated body length equals the declared length, and leaves
every byte beyond the declared length unconsumed in the buffer. -/
theorem body_accumulation (r : Request) (data : Bytes) (L : Int) (rem : Nat)
    (hst : r.state = .stateBody)
    (hL : getInt r.headers contentLengthKey 0 = L)
    (hlt : (r.body.length : Int) < L)
    (hrem : rem = (L - (r.body.length : Int)).toNat ⊓ data.length) :
    parse r data =
      .ok { r with
              body := r.body ++ data.take rem
              state := if ((r.body.length + rem : Nat) : Int) = L then .stateDone
                       else .stateBody } rem := by
  have hL0 : L ≠ 0 := by omega
  have hneed : ¬(L - (r.body.length : Int) < 0) := by omega
  have hneedpos : 1 ≤ (L - (r.body.length : Int)).toNat := by omega
  rw [parse_unfold]
  by_cases he : data.isEmpty
  · have hdata : data = [] := List.isEmpty_iff.mp he
    subst hdata
    rw [if_pos (show ([] : Bytes).isEmpty = true from rfl)]
    have hrem0 : rem = 0 := by simp [hrem]
    subst hrem0
    have hstate : (if ((r.body.length + 0 : Nat) : Int) = L then ParserState.stateDone
        else ParserState.stateBody) = .stateBody := by
      rw [if_neg (by omega)]
    rw [hstate]
    have : { r with body := r.body ++ List.take 0 [], state := ParserState.stateBody } = r := by
      cases r
      simp_all
    rw [this]
  · rw [if_neg he]
    have hdlen : 1 ≤ data.length := by
      cases data with
      | nil => simp at he
      | cons x xs => simp
    have hit : parseIter r data =
        .stepped { r with
                     body := r.body ++ data.take rem
                     state := if ((r.body ++ data.take rem).length : Int) = L
                              then .stateDone else .stateBody } rem := by
      rw [parseIter, hst]
      dsimp only
      rw [hL, if_neg hL0, if_neg hneed, hrem]
    rw [hit]
    dsimp only
    have hremle : rem ≤ data.length := by rw [hrem]; exact Nat.min_le_right _ _
    have htklen : (data.take rem).length = rem := by
      rw [List.length_take]
      omega
    have hlen_eq : ((r.body ++ data.take rem).length : Int) =
        ((r.body.length + rem : Nat) : Int) := by
      rw [List.length_append, htklen]
    have hrempos : 1 ≤ rem := by
      rw [hrem]
      omega
    rw [if_neg (by omega : ¬rem = 0)]
    by_cases hfull : ((r.body.length + rem : Nat) : Int) = L
    · have hdone : ({ r with
            body := r.body ++ data.take rem
            state := if ((r.body ++ data.take rem).length : Int) = L
                     then ParserState.stateDone else ParserState.stateBody } : Request).state
          = .stateDone := by
        dsimp only
        rw [hlen_eq, if_pos hfull]
      rw [parse_done _ _ hdone]
      rw [withRead]
      rw [hlen_eq, Nat.add_zero]
    · have hremfull : rem = data.length := by
        by_cases hc : (L - (r.body.length : Int)).toNat ≤ data.length
        · exfalso
          apply hfull
          have : rem = (L - (r.body.length : Int)).toNat := by
            rw [hrem]; omega
          omega
        · rw [hrem]; omega
      have hdrop : data.drop rem = [] := by
        rw [hremfull, List.drop_length]
      rw [hdrop]
      have hbody : ({ r with
            body := r.body ++ data.take rem
            state := if ((r.body ++ data.take rem).length : Int) = L
                     then ParserState.stateDone else ParserState.stateBody } : Request)
          = { r with
                body := r.body ++ data.take rem
                state := if ((r.body.length + rem : Nat) : Int) = L then ParserState.stateDone
                         else ParserState.stateBody } := by
        rw [hlen_eq]
      rw [parse_nil, withRead, Nat.add_zero, hbody]

theorem body_accumulation_witness :
    parse { newRequest with
              headers := Headers.mk [("content-length".toList, "5".toList)]
              state := .stateBody }
        "helloEXTRA".toList =
      .ok { { newRequest with
                headers := Headers.mk [("content-length".toList, "5".toList)]
                state := .stateBody } with
              body := [] ++ "helloEXTRA".toList.take 5
              state := if (((0 + 5 : Nat)) : Int) = 5 then .stateDone else .stateBody } 5 :=
  body_accumulation
    { newRequest with
        headers := Headers.mk [("content-length".toList, "5".toList)]
        state := .stateBody }
    "helloEXTRA".toList 5 5 rfl (by decide) (by decide) (by decide)

/-- The Body-state invariant: whenever the decoder is in the Body state,
the Content-Length header parses to a positive integer. -/
def bodyCLInv (r : Request) : Prop :=
  r.state = .stateBody → 0 < getInt r.headers contentLengthKey 0

theorem headersParse_err_kinds :
    ∀ (N : Nat) (h : Headers) (data : Bytes), data.length ≤ N →
      ∀ h' e, headersParse h data = .err h' e →
        e = .malformedFieldLine ∨ e = .malformedHeaderName := by
  intro N
  induction N with
  | zero =>
    intro h data hlen h' e heq
    have hdata : data = [] := List.eq_nil_of_length_eq_zero (Nat.le_zero.mp hlen)
    subst hdata
    rw [headersParse_unfold] at heq
    simp only [crlfIndex] at heq
    cases heq
  | succ N ih =>
    intro h data hlen h' e heq
    rw [headersParse_unfold] at heq
    cases hcr : crlfIndex data with
    | none => rw [hcr] at heq; cases heq
    | some i =>
      rw [hcr] at heq
      have hb := crlfIndex_bound data i hcr
      cases i with
      | zero => cases heq
      | succ i =>
        dsimp only at heq
        cases hpl : parseHeaderLine (List.take (i + 1) data) with
        | error e2 =>
          rw [hpl] at heq
          dsimp only at heq
          injection heq with _ he
          subst he
          rw [parseHeaderLine] at hpl
          cases hsp : splitOnFirst ':' (List.take (i + 1) data) with
          | none => rw [hsp] at hpl; injection hpl with he2; exact Or.inl he2.symm
          | some nv => rw [hsp] at hpl; cases hpl
        | ok nv =>
          rcases nv with ⟨name, value⟩
          rw [hpl] at heq
          dsimp only at heq
          by_cases ht : isToken name
          · rw [if_pos ht] at heq
            cases hin : headersParse (h.set name value) (List.drop (i + 1 + 2) data) with
            | err h2 e2 =>
              rw [hin] at heq
              injection heq with _ he
              subst he
              exact ih (h.set name value) (List.drop (i + 1 + 2) data)
                (by simp only [List.length_drop]; omega) h2 _ hin
            | okHp h2 m d2 => rw [hin] at heq; cases heq
          · rw [if_neg ht] at heq
            injection heq with _ he
            exact Or.inr he.symm

theorem parseIter_stepped_inv (r : Request) (data : Bytes) (r' : Request) (n : Nat)
    (hinv : bodyCLInv r) (h : parseIter r data = .stepped r' n) : bodyCLInv r' := by
  rw [parseIter] at h
  cases hst : r.state <;> rw [hst] at h <;> dsimp only at h
  · cases hrl : parseRequestLine data with
    | needMore => rw [hrl] at h; cases h
    | malformed => rw [hrl] at h; cases h
    | okLine rl m =>
      rw [hrl] at h
      injection h with hr _
      subst hr
      intro hbody
      cases hbody
  · cases hhp : headersParse r.headers data with
    | err h2 e => rw [hhp] at h; cases h
    | okHp h2 m dn =>
      rw [hhp] at h
      dsimp only at h
      by_cases hm : m = 0
      · rw [if_pos hm] at h; cases h
      · rw [if_neg hm] at h
        injection h with hr _
        subst hr
        intro hbody
        dsimp only at hbody ⊢
        cases dn with
        | false => rw [if_neg (by simp)] at hbody; cases hbody
        | true =>
          rw [if_pos rfl] at hbody
          by_cases hb : Request.hasBody { r with headers := h2, state := ParserState.stateHeaders }
          · exact of_decide_eq_true hb
          · rw [if_neg hb] at hbody; cases hbody
  · by_cases h1 : getInt r.headers contentLengthKey 0 = 0
    · rw [if_pos h1] at h; cases h
    · rw [if_neg h1] at h
      by_cases h2 : getInt r.headers contentLengthKey 0 - (r.body.length : Int) < 0
      · rw [if_pos h2] at h; cases h
      · rw [if_neg h2] at h
        injection h with hr _
        subst hr
        intro _
        dsimp only
        exact hinv hst
  · cases h
  · cases h

theorem parseIter_errored_kind (r : Request) (data : Bytes) (r' : Request) (e : PErr)
    (hinv : bodyCLInv r) (h : parseIter r data = .errored r' e) : e ≠ .panicChunked := by
  rw [parseIter] at h
  cases hst : r.state <;> rw [hst] at h <;> dsimp only at h
  · cases hrl : parseRequestLine data with
    | needMore => rw [hrl] at h; cases h
    | malformed =>
      rw [hrl] at h
      injection h with _ he
      subst he
      intro hc; cases hc
    | okLine rl m => rw [hrl] at h; cases h
  · cases hhp : headersParse r.headers data with
    | err h2 e2 =>
      rw [hhp] at h
      injection h with _ he
      subst he
      rcases headersParse_err_kinds data.length r.headers data (Nat.le_refl _) h2 _ hhp
        with hk | hk <;> (rw [hk]; intro hc; cases hc)
    | okHp h2 m dn =>
      rw [hhp] at h
      dsimp only at h
      by_cases hm : m = 0
      · rw [if_pos hm] at h; cases h
      · rw [if_neg hm] at h; cases h
  · by_cases h1 : getInt r.headers contentLengthKey 0 = 0
    · exact absurd h1 (by have := hinv hst; omega)
    · rw [if_neg h1] at h
      by_cases h2 : getInt r.headers contentLengthKey 0 - (r.body.length : Int) < 0
      · rw [if_pos h2] at h
        injection h with _ he
        subst he
        intro hc; cases hc
      · rw [if_neg h2] at h; cases h
  · cases h
  · injection h with _ he
    subst he
    intro hc; cases hc

theorem parse_ok_inv :
    ∀ (N : Nat) (r : Request) (data : Bytes), data.length ≤ N →
      bodyCLInv r → ∀ r' n, parse r data = .ok r' n → bodyCLInv r' := by
  intro N
  induction N with
  | zero =>
    intro r data hlen hinv r' n heq
    have hdata : data = [] := List.eq_nil_of_length_eq_zero (Nat.le_zero.mp hlen)
    subst hdata
    rw [parse_nil] at heq
    injection heq with hr _
    subst hr
    exact hinv
  | succ N ih =>
    intro r data hlen hinv r' n heq
    rw [parse_unfold] at heq
    by_cases he : data.isEmpty
    · rw [if_pos he] at heq
      injection heq with hr _
      subst hr
      exact hinv
    · rw [if_neg he] at heq
      cases hit : parseIter r data with
      | broke =>
        rw [hit] at heq
        injection heq with hr _
        subst hr
        exact hinv
      | errored r2 e => rw [hit] at heq; cases heq
      | stepped r2 m =>
        rw [hit] at heq
        dsimp only at heq
        have hinv2 := parseIter_stepped_inv r data r2 m hinv hit
        by_cases hm : m = 0
        · rw [if_pos hm] at heq
          injection heq with hr _
          subst hr
          exact hinv2
        · rw [if_neg hm] at heq
          cases hin : parse r2 (List.drop m data) with
          | err r3 e => rw [hin] at heq; cases heq
          | ok r3 k =>
            rw [hin] at heq
            injection heq with hr _
            subst hr
            have hdlen : 1 ≤ data.length := by
              cases data with
              | nil => simp at he
              | cons x xs => simp
            exact ih r2 (List.drop m data)
              (by simp only [List.length_drop]; omega) hinv2 r3 k hin

theorem parse_no_panicChunked :
    ∀ (N : Nat) (r : Request) (data : Bytes), data.length ≤ N →
      bodyCLInv r → ∀ r', parse r data ≠ .err r' .panicChunked := by
  intro N
  induction N with
  | zero =>
    intro r data hlen _ r' heq
    have hdata : data = [] := List.eq_nil_of_length_eq_zero (Nat.le_zero.mp hlen)
    subst hdata
    rw [parse_nil] at heq
    cases heq
  | succ N ih =>
    intro r data hlen hinv r' heq
    rw [parse_unfold] at heq
    by_cases he : data.isEmpty
    · rw [if_pos he] at heq; cases heq
    · rw [if_neg he] at heq
      cases hit : parseIter r data with
      | broke => rw [hit] at heq; cases heq
      | errored r2 e =>
        rw [hit] at heq
        injection heq with _ hee
        exact parseIter_errored_kind r data r2 e hinv hit hee
      | stepped r2 m =>
        rw [hit] at heq
        dsimp only at heq
        by_cases hm : m = 0
        · rw [if_pos hm] at heq; cases heq
        · rw [if_neg hm] at heq
          cases hin : parse r2 (List.drop m data) with
          | ok r3 k => rw [hin] at heq; cases heq
          | err r3 e =>
            rw [hin] at heq
            rw [withRead] at heq
            injection heq with hr hee
            subst hr
            subst hee
            have hdlen : 1 ≤ data.length := by
              cases data with
              | nil => simp at he
              | cons x xs => simp
            exact ih r2 (List.drop m data)
              (by simp only [List.length_drop]; omega)
              (parseIter_stepped_inv r data r2 m hinv hit) _ hin

/-- The requests reachable by driving `parse` from the initial decoder
state over any sequence of buffers. -/
inductive Reachable : Request → Prop where
  | base : Reachable newRequest
  | step {r r' : Request} {data : Bytes} {n : Nat} :
      Reachable r → parse r data = .ok r' n → Reachable r'

/-- C10: from every reachable decoder state, whenever the parser is in
the Body state the Content-Length header parses to a positive integer,
so the `length == 0` guard of the Body arm never holds and the
chunked-not-implemented panic is unreachable. -/
theorem body_panic_unreachable (r : Request) (hr : Reachable r) :
    (r.state = .stateBody → 0 < getInt r.headers contentLengthKey 0) ∧
    (∀ (data : Bytes) (r' : Request), parse r data ≠ .err r' .panicChunked) := by
  have hinv : bodyCLInv r := by
    induction hr with
    | base => intro hc; cases hc
    | step hr0 hstep ih =>
      exact parse_ok_inv _ _ _ (Nat.le_refl _) ih _ _ hstep
  exact ⟨hinv, fun data r' => parse_no_panicChunked data.length r data (Nat.le_refl _) hinv r'⟩

/-- The decoder state after consuming a request line, a Content-Length
header and two body bytes of a five-byte body. -/
def reqBodyStage : Request :=
  { requestLine :=
      { httpVersion := "1.1".toList, requestTarget := "/s".toList
        method := "POST".toList }
    headers := Headers.mk [("content-length".toList, "5".toList)]
    body := "ab".toList
    pathParams := []
    state := .stateBody }

theorem body_panic_unreachable_witness :
    (reqBodyStage.state = .stateBody →
      0 < getInt reqBodyStage.headers contentLengthKey 0) ∧
    (∀ (data : Bytes) (r' : Request),
      parse reqBodyStage data ≠ .err r' .panicChunked) :=
  body_panic_unreachable reqBodyStage
    (Reachable.step Reachable.base
      (show parse newRequest "POST /s HTTP/1.1\r\nContent-Length: 5\r\n\r\nab".toList =
          .ok reqBodyStage 41 by decide))

/-- Add an already-consumed count in front of a `Headers.Parse` result. -/
def addRead : HPResult → Nat → HPResult
  | .okHp h n d, m => .okHp h (m + n) d
  | .err h e, _ => .err h e

theorem addRead_zero (p : HPResult) : addRead p 0 = p := by
  cases p with
  | okHp h n d => simp [addRead]
  | err h e => rfl

theorem withRead_zero (p : PResult) : withRead p 0 = p := by
  cases p with
  | ok r n => simp [withRead]
  | err r e => rfl

theorem withRead_withRead (p : PResult) (k m : Nat) :
    withRead (withRead p k) m = withRead p (m + k) := by
  cases p with
  | ok r n => simp [withRead, Nat.add_assoc]
  | err r e => rfl

theorem hp_zero (h : Headers) (data : Bytes) (h' : Headers) (d : Bool)
    (heq : headersParse h data = .okHp h' 0 d) : h' = h ∧ d = false := by
  rw [headersParse_unfold] at heq
  cases hcr : crlfIndex data with
  | none =>
    rw [hcr] at heq
    injection heq with h1 _ h3
    exact ⟨h1.symm, h3.symm⟩
  | some i =>
    rw [hcr] at heq
    cases i with
    | zero => injection heq with _ h2 _; cases h2
    | succ i =>
      dsimp only at heq
      cases hpl : parseHeaderLine (List.take (i + 1) data) with
      | error e => rw [hpl] at heq; cases heq
      | ok nv =>
        rcases nv with ⟨name, value⟩
        rw [hpl] at heq
        dsimp only at heq
        by_cases ht : isToken name
        · rw [if_pos ht] at heq
          cases hin : headersParse (h.set name value) (List.drop (i + 1 + 2) data) with
          | err h2 e => rw [hin] at heq; cases heq
          | okHp h2 m d2 =>
            rw [hin] at heq
            injection heq with _ h2eq _
            omega
        · rw [if_neg ht] at heq; cases heq

theorem hp_append :
    ∀ (N : Nat) (h : Headers) (data : Bytes), data.length ≤ N → ∀ (ext : Bytes),
      (∀ h' n, headersParse h data = .okHp h' n true →
        headersParse h (data ++ ext) = .okHp h' n true) ∧
      (∀ h' n, headersParse h data = .okHp h' n false →
        headersParse h (data ++ ext) = addRead (headersParse h' (data.drop n ++ ext)) n) ∧
      (∀ h' e, headersParse h data = .err h' e →
        headersParse h (data ++ ext) = .err h' e) := by
  intro N
  induction N with
  | zero =>
    intro h data hlen ext
    have hdata : data = [] := List.eq_nil_of_length_eq_zero (Nat.le_zero.mp hlen)
    subst hdata
    have hnil : headersParse h [] = .okHp h 0 false := by
      rw [headersParse_unfold]
      rfl
    refine ⟨?_, ?_, ?_⟩
    · intro h' n heq; rw [hnil] at heq; cases heq
    · intro h' n heq
      rw [hnil] at heq
      injection heq with h1 h2 _
      subst h1; subst h2
      rw [List.nil_append, List.drop_nil, List.nil_append, addRead_zero]
    · intro h' e heq; rw [hnil] at heq; cases heq
  | succ N ih =>
    intro h data hlen ext
    cases hcr : crlfIndex data with
    | none =>
      have hthis : headersParse h data = .okHp h 0 false := by
        rw [headersParse_unfold, hcr]
      refine ⟨?_, ?_, ?_⟩
      · intro h' n heq; rw [hthis] at heq; cases heq
      · intro h' n heq
        rw [hthis] at heq
        injection heq with h1 h2 _
        subst h1; subst h2
        rw [List.drop_zero, addRead_zero]
      · intro h' e heq; rw [hthis] at heq; cases heq
    | some i =>
      have hb := crlfIndex_bound data i hcr
      have hcrx : crlfIndex (data ++ ext) = some i := crlfIndex_append data ext i hcr
      cases i with
      | zero =>
        have hthis : headersParse h data = .okHp h 2 true := by
          rw [headersParse_unfold, hcr]
        have hthat : headersParse h (data ++ ext) = .okHp h 2 true := by
          rw [headersParse_unfold, hcrx]
        refine ⟨?_, ?_, ?_⟩
        · intro h' n heq
          rw [hthis] at heq
          injection heq with h1 h2 _
          subst h1; subst h2
          exact hthat
        · intro h' n heq; rw [hthis] at heq; injection heq with _ _ h3; cases h3
        · intro h' e heq; rw [hthis] at heq; cases heq
      | succ i =>
        have htake : (data ++ ext).take (i + 1) = data.take (i + 1) :=
          List.take_append_of_le_length (by omega)
        have hdrop : (data ++ ext).drop (i + 1 + 2) = data.drop (i + 1 + 2) ++ ext :=
          List.drop_append_of_le_length (by omega)
        have hthis : headersParse h data =
            match parseHeaderLine (data.take (i + 1)) with
            | .error e => .err h e
            | .ok (name, value) =>
              if isToken name then
                match headersParse (h.set name value) (data.drop (i + 1 + 2)) with
                | .err h' e => .err h' e
                | .okHp h' m d => .okHp h' (i + 1 + 2 + m) d
              else .err h .malformedHeaderName := by
          rw [headersParse_unfold, hcr]
        have hthat : headersParse h (data ++ ext) =
            match parseHeaderLine (data.take (i + 1)) with
            | .error e => .err h e
            | .ok (name, value) =>
              if isToken name then
                match headersParse (h.set name value) (data.drop (i + 1 + 2) ++ ext) with
                | .err h' e => .err h' e
                | .okHp h' m d => .okHp h' (i + 1 + 2 + m) d
              else .err h .malformedHeaderName := by
          rw [headersParse_unfold, hcrx]
          dsimp only
          rw [htake, hdrop]
        have hdlen : (data.drop (i + 1 + 2)).length ≤ N := by
          simp only [List.length_drop]; omega
        cases hpl : parseHeaderLine (data.take (i + 1)) with
        | error e2 =>
          rw [hpl] at hthis hthat
          refine ⟨?_, ?_, ?_⟩
          · intro h' n heq; rw [hthis] at heq; cases heq
          · intro h' n heq; rw [hthis] at heq; cases heq
          · intro h' e heq
            rw [hthis] at heq
            rw [hthat]
            exact heq
        | ok nv =>
          rcases nv with ⟨name, value⟩
          rw [hpl] at hthis hthat
          dsimp only at hthis hthat
          by_cases ht : isToken name
          · rw [if_pos ht] at hthis hthat
            rcases ih (h.set name value) (data.drop (i + 1 + 2)) hdlen ext
              with ⟨ihT, ihF, ihE⟩
            cases hin : headersParse (h.set name value) (data.drop (i + 1 + 2)) with
            | err h2 e2 =>
              rw [hin] at hthis
              refine ⟨?_, ?_, ?_⟩
              · intro h' n heq; rw [hthis] at heq; cases heq
              · intro h' n heq; rw [hthis] at heq; cases heq
              · intro h' e heq
                rw [hthis] at heq
                injection heq with h1 h2eq
                subst h1; subst h2eq
                rw [hthat, ihE h2 e2 hin]
            | okHp h2 m d2 =>
              rw [hin] at hthis
              cases d2 with
              | true =>
                refine ⟨?_, ?_, ?_⟩
                · intro h' n heq
                  rw [hthis] at heq
                  injection heq with h1 h2eq _
                  subst h1; subst h2eq
                  rw [hthat, ihT h2 m hin]
                · intro h' n heq; rw [hthis] at heq; injection heq with _ _ h3; cases h3
                · intro h' e heq; rw [hthis] at heq; cases heq
              | false =>
                refine ⟨?_, ?_, ?_⟩
                · intro h' n heq; rw [hthis] at heq; injection heq with _ _ h3; cases h3
                · intro h' n heq
                  rw [hthis] at heq
                  injection heq with h1 h2eq _
                  subst h1; subst h2eq
                  rw [hthat, ihF h2 m hin]
                  have hdd : (data.drop (i + 1 + 2)).drop m =
                      data.drop (i + 1 + 2 + m) := by
                    rw [List.drop_drop]
                  rw [hdd]
                  cases hX : headersParse h2 (data.drop (i + 1 + 2 + m) ++ ext) with
                  | okHp h3 n3 d3 =>
                    show HPResult.okHp h3 (i + 1 + 2 + (m + n3)) d3 =
                      HPResult.okHp h3 (i + 1 + 2 + m + n3) d3
                    congr 1
                    omega
                  | err h3 e3 => rfl
                · intro h' e heq; rw [hthis] at heq; cases heq
          · rw [if_neg ht] at hthis hthat
            refine ⟨?_, ?_, ?_⟩
            · intro h' n heq; rw [hthis] at heq; cases heq
            · intro h' n heq; rw [hthis] at heq; cases heq
            · intro h' e heq
              rw [hthis] at heq
              injection heq with h1 h2eq
              subst h1; subst h2eq
              rw [hthat]

theorem append_ne_nil_right (data ext : Bytes) (hne : ext ≠ []) :
    (data ++ ext).isEmpty = false := by
  cases data with
  | nil => simp [List.isEmpty_iff, hne]
  | cons x xs => simp

theorem append_ne_nil_left (data ext : Bytes) (hne : data ≠ []) :
    (data ++ ext).isEmpty = false := by
  cases data with
  | nil => exact absurd rfl hne
  | cons x xs => simp

theorem parseRequestLine_append (data ext : Bytes) (idx : Nat)
    (hidx : crlfIndex data = some idx) :
    parseRequestLine (data ++ ext) = parseRequestLine data := by
  have hb := crlfIndex_bound data idx hidx
  rw [parseRequestLine, parseRequestLine, hidx, crlfIndex_append data ext idx hidx]
  dsimp only
  rw [List.take_append_of_le_length (by omega)]

theorem parseIter_step_append (r : Request) (data ext : Bytes) (r2 : Request) (m : Nat)
    (hne : data ≠ []) (hm : m ≠ 0) (hit : parseIter r data = .stepped r2 m) :
    parse r (data ++ ext) = withRead (parse r2 (data.drop m ++ ext)) m := by
  by_cases hext : ext = []
  · subst hext
    rw [List.append_nil, List.append_nil]
    rw [parse_unfold, if_neg (by simp [List.isEmpty_iff, hne]), hit]
    dsimp only
    rw [if_neg hm]
  · have hnex : ((data ++ ext).isEmpty = true) → False := by
      rw [append_ne_nil_right data ext hext]; simp
    rcases r with ⟨rl0, h0, b0, pp0, st0⟩
    cases st0 with
    | stateDone => rw [parseIter] at hit; cases hit
    | stateError => rw [parseIter] at hit; cases hit
    | stateInit =>
      rw [parseIter] at hit
      dsimp only at hit
      cases hrl : parseRequestLine data with
      | needMore => rw [hrl] at hit; cases hit
      | malformed => rw [hrl] at hit; cases hit
      | okLine rl m0 =>
        rw [hrl] at hit
        injection hit with hr hmeq
        subst hr
        subst hmeq
        rcases parseRequestLine_okLine_inv data rl m0 hrl with ⟨idx, hidx, hm2⟩
        have hble := crlfIndex_bound data idx hidx
        rw [parse_unfold, if_neg hnex]
        have hitx : parseIter ⟨rl0, h0, b0, pp0, .stateInit⟩ (data ++ ext) =
            .stepped ⟨rl, h0, b0, pp0, .stateHeaders⟩ m0 := by
          rw [parseIter]
          dsimp only
          rw [parseRequestLine_append data ext idx hidx, hrl]
        rw [hitx]
        dsimp only
        rw [if_neg hm]
        rw [List.drop_append_of_le_length (by omega)]
    | stateHeaders =>
      rw [parseIter] at hit
      dsimp only at hit
      cases hhp : headersParse h0 data with
      | err h2 e => rw [hhp] at hit; cases hit
      | okHp h2 m0 dn =>
        rw [hhp] at hit
        dsimp only at hit
        by_cases hm0 : m0 = 0
        · rw [if_pos hm0] at hit; cases hit
        · rw [if_neg hm0] at hit
          rcases hp_append data.length h0 data (Nat.le_refl _) ext with ⟨hpT, hpF2, hpE⟩
          have hm0le : m0 ≤ data.length :=
            headersParse_read_le data.length h0 data (Nat.le_refl _) h2 m0 dn hhp
          cases dn with
          | true =>
            rw [if_pos rfl] at hit
            injection hit with hr hmeq
            subst hr
            subst hmeq
            have hhpx := hpT h2 m0 hhp
            rw [parse_unfold, if_neg hnex]
            have hitx : parseIter ⟨rl0, h0, b0, pp0, .stateHeaders⟩ (data ++ ext) =
                .stepped ⟨rl0, h2, b0, pp0,
                  if Request.hasBody ⟨rl0, h2, b0, pp0, .stateHeaders⟩ then .stateBody
                  else .stateDone⟩ m0 := by
              rw [parseIter]
              dsimp only
              rw [hhpx]
              dsimp only
              rw [if_neg hm0, if_pos rfl]
            rw [hitx]
            dsimp only
            rw [if_neg hm0]
            rw [List.drop_append_of_le_length hm0le]
          | false =>
            rw [if_neg (by simp)] at hit
            injection hit with hr hmeq
            subst hr
            subst hmeq
            have hhpx := hpF2 h2 m0 hhp
            rw [parse_unfold, if_neg hnex]
            cases hX : headersParse h2 (data.drop m0 ++ ext) with
            | err h3 e3 =>
              rw [hX] at hhpx
              have hitx : parseIter ⟨rl0, h0, b0, pp0, .stateHeaders⟩ (data ++ ext) =
                  .errored ⟨rl0, h3, b0, pp0, .stateError⟩ e3 := by
                rw [parseIter]
                dsimp only
                rw [hhpx]
                dsimp only [addRead]
              rw [hitx]
              have hrhs : parse ⟨rl0, h2, b0, pp0, .stateHeaders⟩ (data.drop m0 ++ ext) =
                  .err ⟨rl0, h3, b0, pp0, .stateError⟩ e3 := by
                rw [parse_unfold, if_neg (by rw [append_ne_nil_right _ ext hext]; simp)]
                have hity : parseIter ⟨rl0, h2, b0, pp0, .stateHeaders⟩
                    (data.drop m0 ++ ext) = .errored ⟨rl0, h3, b0, pp0, .stateError⟩ e3 := by
                  rw [parseIter]
                  dsimp only
                  rw [hX]
                rw [hity]
              rw [hrhs]
              rfl
            | okHp h3 m3 d3 =>
              rw [hX] at hhpx
              by_cases hm3 : m3 = 0
              · subst hm3
                rcases hp_zero h2 (data.drop m0 ++ ext) h3 d3 hX with ⟨hh3, hd3⟩
                subst hh3
                subst hd3
                have hitx : parseIter ⟨rl0, h0, b0, pp0, .stateHeaders⟩ (data ++ ext) =
                    .stepped ⟨rl0, h3, b0, pp0, .stateHeaders⟩ m0 := by
                  rw [parseIter]
                  dsimp only
                  rw [hhpx]
                  dsimp only [addRead]
                  rw [if_neg (by omega), if_neg (by simp), Nat.add_zero]
                rw [hitx]
                dsimp only
                rw [if_neg hm0]
                rw [List.drop_append_of_le_length hm0le]
              · have hitx : parseIter ⟨rl0, h0, b0, pp0, .stateHeaders⟩ (data ++ ext) =
                    .stepped ⟨rl0, h3, b0, pp0,
                      if d3 then
                        (if Request.hasBody ⟨rl0, h3, b0, pp0, .stateHeaders⟩ then .stateBody
                         else .stateDone)
                      else .stateHeaders⟩ (m0 + m3) := by
                  rw [parseIter]
                  dsimp only
                  rw [hhpx]
                  dsimp only [addRead]
                  rw [if_neg (by omega)]
                rw [hitx]
                dsimp only
                rw [if_neg (by omega : ¬m0 + m3 = 0)]
                have hrhs : parse ⟨rl0, h2, b0, pp0, .stateHeaders⟩ (data.drop m0 ++ ext) =
                    withRead (parse ⟨rl0, h3, b0, pp0,
                      if d3 then
                        (if Request.hasBody ⟨rl0, h3, b0, pp0, .stateHeaders⟩ then .stateBody
                         else .stateDone)
                      else .stateHeaders⟩ ((data.drop m0 ++ ext).drop m3)) m3 := by
                  rw [parse_unfold, if_neg (by rw [append_ne_nil_right _ ext hext]; simp)]
                  have hity : parseIter ⟨rl0, h2, b0, pp0, .stateHeaders⟩
                      (data.drop m0 ++ ext) = .stepped ⟨rl0, h3, b0, pp0,
                        if d3 then
                          (if Request.hasBody ⟨rl0, h3, b0, pp0, .stateHeaders⟩ then .stateBody
                           else .stateDone)
                        else .stateHeaders⟩ m3 := by
                    rw [parseIter]
                    dsimp only
                    rw [hX]
                    dsimp only
                    rw [if_neg hm3]
                  rw [hity]
                  dsimp only
                  rw [if_neg hm3]
                rw [hrhs, withRead_withRead]
                have hdd : (data ++ ext).drop (m0 + m3) = (data.drop m0 ++ ext).drop m3 := by
                  rw [← List.drop_drop]
                  rw [List.drop_append_of_le_length hm0le]
                rw [hdd]
    | stateBody =>
      rw [parseIter] at hit
      dsimp only at hit
      by_cases hL : getInt h0 contentLengthKey 0 = 0
      · rw [if_pos hL] at hit; cases hit
      · rw [if_neg hL] at hit
        by_cases hnd : getInt h0 contentLengthKey 0 - ((b0 : Bytes).length : Int) < 0
        · rw [if_pos hnd] at hit; cases hit
        · rw [if_neg hnd] at hit
          injection hit with hr hmeq
          subst hr
          subst hmeq
          by_cases hcmp : (getInt h0 contentLengthKey 0 - ((b0 : Bytes).length : Int)).toNat ≤
              data.length
          · have hmv : (getInt h0 contentLengthKey 0 - ((b0 : Bytes).length : Int)).toNat ⊓
                data.length =
                (getInt h0 contentLengthKey 0 - ((b0 : Bytes).length : Int)).toNat :=
              min_eq_left hcmp
            rw [hmv] at hm ⊢
            rw [parse_unfold, if_neg hnex]
            have h1 : (getInt h0 contentLengthKey 0 - ((b0 : Bytes).length : Int)).toNat ⊓
                (data ++ ext).length =
                (getInt h0 contentLengthKey 0 - ((b0 : Bytes).length : Int)).toNat := by
              rw [List.length_append]
              exact min_eq_left (by omega)
            have hitx : parseIter ⟨rl0, h0, b0, pp0, .stateBody⟩ (data ++ ext) =
                .stepped ⟨rl0, h0,
                  b0 ++ data.take
                    (getInt h0 contentLengthKey 0 - ((b0 : Bytes).length : Int)).toNat, pp0,
                  if (((b0 ++ data.take
                      (getInt h0 contentLengthKey 0 -
                        ((b0 : Bytes).length : Int)).toNat).length : Nat) : Int) =
                      getInt h0 contentLengthKey 0 then .stateDone else .stateBody⟩
                  (getInt h0 contentLengthKey 0 - ((b0 : Bytes).length : Int)).toNat := by
              rw [parseIter]
              dsimp only
              rw [if_neg hL, if_neg hnd, h1, List.take_append_of_le_length hcmp]
            rw [hitx]
            dsimp only
            rw [if_neg hm]
            rw [List.drop_append_of_le_length hcmp]
          · have hmv : (getInt h0 contentLengthKey 0 - ((b0 : Bytes).length : Int)).toNat ⊓
                data.length = data.length := min_eq_right (by omega)
            rw [hmv] at hm ⊢
            rw [List.take_length, List.drop_length, List.nil_append]
            have hextlen : 1 ≤ ext.length := by
              cases ext with
              | nil => exact absurd rfl hext
              | cons x xs => simp
            have hcond : ¬((((b0 ++ data).length : Nat) : Int) =
                getInt h0 contentLengthKey 0) := by
              rw [List.length_append]
              omega
            rw [if_neg hcond]
            obtain ⟨m2, hm2⟩ : ∃ m2, m2 =
                (getInt h0 contentLengthKey 0 - (((b0 ++ data).length : Nat) : Int)).toNat ⊓
                  ext.length := ⟨_, rfl⟩
            have hm2pos : 1 ≤ m2 := by
              rw [hm2]
              have : 1 ≤ (getInt h0 contentLengthKey 0 -
                  (((b0 ++ data).length : Nat) : Int)).toNat := by
                rw [List.length_append]
                omega
              omega
            rw [parse_unfold, if_neg hnex]
            have hitx : parseIter ⟨rl0, h0, b0, pp0, .stateBody⟩ (data ++ ext) =
                .stepped ⟨rl0, h0, b0 ++ (data ++ ext.take m2), pp0,
                  if (((b0 ++ (data ++ ext.take m2)).length : Nat) : Int) =
                      getInt h0 contentLengthKey 0 then .stateDone else .stateBody⟩
                  (data.length + m2) := by
              rw [parseIter]
              dsimp only
              rw [if_neg hL, if_neg hnd]
              have hcnt : (getInt h0 contentLengthKey 0 -
                  ((b0 : Bytes).length : Int)).toNat ⊓ (data ++ ext).length =
                  data.length + m2 := by
                rw [List.length_append, hm2, List.length_append]
                omega
              rw [hcnt]
              have htk : (data ++ ext).take (data.length + m2) = data ++ ext.take m2 := by
                rw [List.take_append_eq_append_take, List.take_of_length_le (by omega)]
                have hidx : data.length + m2 - data.length = m2 := by omega
                rw [hidx]
              rw [htk]
            rw [hitx]
            dsimp only
            rw [if_neg (by omega : ¬data.length + m2 = 0)]
            have hdrp : (data ++ ext).drop (data.length + m2) = ext.drop m2 := by
              rw [List.drop_append_eq_append_drop, List.drop_eq_nil_of_le (by omega),
                List.nil_append]
              have hidx : data.length + m2 - data.length = m2 := by omega
              rw [hidx]
            rw [hdrp]
            have hrhs : parse ⟨rl0, h0, b0 ++ data, pp0, .stateBody⟩ ext =
                withRead (parse ⟨rl0, h0, (b0 ++ data) ++ ext.take m2, pp0,
                  if ((((b0 ++ data) ++ ext.take m2).length : Nat) : Int) =
                      getInt h0 contentLengthKey 0 then .stateDone else .stateBody⟩
                  (ext.drop m2)) m2 := by
              rw [parse_unfold, if_neg (by simp [List.isEmpty_iff, hext])]
              have hity : parseIter ⟨rl0, h0, b0 ++ data, pp0, .stateBody⟩ ext =
                  .stepped ⟨rl0, h0, (b0 ++ data) ++ ext.take m2, pp0,
                    if ((((b0 ++ data) ++ ext.take m2).length : Nat) : Int) =
                        getInt h0 contentLengthKey 0 then .stateDone else .stateBody⟩ m2 := by
                rw [parseIter]
                dsimp only
                rw [if_neg hL]
                rw [if_neg (by rw [List.length_append]; omega :
                  ¬getInt h0 contentLengthKey 0 - (((b0 ++ data).length : Nat) : Int) < 0)]
                rw [← hm2]
              rw [hity]
              dsimp only
              rw [if_neg (by omega : ¬m2 = 0)]
            rw [hrhs, withRead_withRead, List.append_assoc]


theorem parseRequestLine_malformed_inv (b : Bytes)
    (h : parseRequestLine b = .malformed) : ∃ idx, crlfIndex b = some idx := by
  rw [parseRequestLine] at h
  cases hcr : crlfIndex b with
  | none => rw [hcr] at h; cases h
  | some idx => exact ⟨idx, rfl⟩

theorem parseIter_errored_append (r : Request) (data ext : Bytes) (r' : Request)
    (e : PErr) (hit : parseIter r data = .errored r' e) :
    parseIter r (data ++ ext) = .errored r' e := by
  rcases r with ⟨rl0, h0, b0, pp0, st0⟩
  cases st0 with
  | stateDone => rw [parseIter] at hit; cases hit
  | stateError =>
    rw [parseIter] at hit
    rw [parseIter]
    exact hit
  | stateInit =>
    rw [parseIter] at hit
    dsimp only at hit
    rw [parseIter]
    dsimp only
    cases hrl : parseRequestLine data with
    | needMore => rw [hrl] at hit; cases hit
    | okLine rl m0 => rw [hrl] at hit; cases hit
    | malformed =>
      rw [hrl] at hit
      rcases parseRequestLine_malformed_inv data hrl with ⟨idx, hidx⟩
      rw [parseRequestLine_append data ext idx hidx, hrl]
      exact hit
  | stateHeaders =>
    rw [parseIter] at hit
    dsimp only at hit
    rw [parseIter]
    dsimp only
    cases hhp : headersParse h0 data with
    | okHp h2 m0 dn =>
      rw [hhp] at hit
      dsimp only at hit
      by_cases hm0 : m0 = 0
      · rw [if_pos hm0] at hit; cases hit
      · rw [if_neg hm0] at hit; cases hit
    | err h2 e2 =>
      rw [hhp] at hit
      rcases hp_append data.length h0 data (Nat.le_refl _) ext with ⟨_, _, hpE⟩
      rw [hpE h2 e2 hhp]
      exact hit
  | stateBody =>
    rw [parseIter] at hit
    dsimp only at hit
    rw [parseIter]
    dsimp only
    by_cases hL : getInt h0 contentLengthKey 0 = 0
    · rw [if_pos hL] at hit ⊢
      exact hit
    · rw [if_neg hL] at hit ⊢
      by_cases hnd : getInt h0 contentLengthKey 0 - ((b0 : Bytes).length : Int) < 0
      · rw [if_pos hnd] at hit ⊢
        exact hit
      · rw [if_neg hnd] at hit; cases hit

theorem parseIter_stepped_zero (r : Request) (data ext : Bytes) (r' : Request)
    (hne : data ≠ []) (hit : parseIter r data = .stepped r' 0) :
    r'.state = .stateDone ∧ parseIter r (data ++ ext) = .stepped r' 0 := by
  have hdlen : 1 ≤ data.length := by
    cases data with
    | nil => exact absurd rfl hne
    | cons x xs => simp
  rcases r with ⟨rl0, h0, b0, pp0, st0⟩
  cases st0 with
  | stateDone => rw [parseIter] at hit; cases hit
  | stateError => rw [parseIter] at hit; cases hit
  | stateInit =>
    rw [parseIter] at hit
    dsimp only at hit
    cases hrl : parseRequestLine data with
    | needMore => rw [hrl] at hit; cases hit
    | malformed => rw [hrl] at hit; cases hit
    | okLine rl m0 =>
      rw [hrl] at hit
      injection hit with _ hmeq
      rcases parseRequestLine_okLine_inv data rl m0 hrl with ⟨idx, _, hm2⟩
      omega
  | stateHeaders =>
    rw [parseIter] at hit
    dsimp only at hit
    cases hhp : headersParse h0 data with
    | err h2 e2 => rw [hhp] at hit; cases hit
    | okHp h2 m0 dn =>
      rw [hhp] at hit
      dsimp only at hit
      by_cases hm0 : m0 = 0
      · rw [if_pos hm0] at hit; cases hit
      · rw [if_neg hm0] at hit
        injection hit with _ hmeq
        exact absurd hmeq hm0
  | stateBody =>
    rw [parseIter] at hit
    dsimp only at hit
    by_cases hL : getInt h0 contentLengthKey 0 = 0
    · rw [if_pos hL] at hit; cases hit
    · rw [if_neg hL] at hit
      by_cases hnd : getInt h0 contentLengthKey 0 - ((b0 : Bytes).length : Int) < 0
      · rw [if_pos hnd] at hit; cases hit
      · rw [if_neg hnd] at hit
        injection hit with hr hmeq
        have hzero : (getInt h0 contentLengthKey 0 - ((b0 : Bytes).length : Int)).toNat = 0 := by
          omega
        have hLeq : ((b0 : Bytes).length : Int) = getInt h0 contentLengthKey 0 := by
          omega
        have hmin1 : (0 : Nat) ⊓ data.length = 0 := by omega
        have hmin2 : (0 : Nat) ⊓ (data ++ ext).length = 0 := by omega
        constructor
        · rw [← hr]
          dsimp only
          rw [hzero, hmin1, List.take_zero, List.append_nil]
          rw [if_pos hLeq]
        · rw [parseIter]
          dsimp only
          rw [if_neg hL, if_neg hnd]
          rw [← hr]
          rw [hzero, hmin1, hmin2, List.take_zero, List.take_zero]

theorem parse_append :
    ∀ (N : Nat) (r : Request) (data : Bytes), data.length ≤ N → ∀ (ext : Bytes),
      (∀ r' n, parse r data = .ok r' n →
        parse r (data ++ ext) = withRead (parse r' (data.drop n ++ ext)) n) ∧
      (∀ r' e, parse r data = .err r' e → parse r (data ++ ext) = .err r' e) := by
  intro N
  induction N with
  | zero =>
    intro r data hlen ext
    have hdata : data = [] := List.eq_nil_of_length_eq_zero (Nat.le_zero.mp hlen)
    subst hdata
    constructor
    · intro r' n heq
      rw [parse_nil] at heq
      injection heq with hr hn
      subst hr
      subst hn
      rw [List.nil_append, List.drop_nil, List.nil_append, withRead_zero]
    · intro r' e heq
      rw [parse_nil] at heq
      cases heq
  | succ N ih =>
    intro r data hlen ext
    constructor
    · intro r' n heq
      rw [parse_unfold] at heq
      by_cases he : data.isEmpty
      · rw [if_pos he] at heq
        injection heq with hr hn
        subst hr
        subst hn
        have hdata : data = [] := List.isEmpty_iff.mp he
        subst hdata
        rw [List.nil_append, List.drop_nil, List.nil_append, withRead_zero]
      · rw [if_neg he] at heq
        have hne : data ≠ [] := fun hc => he (by rw [hc]; rfl)
        cases hit : parseIter r data with
        | broke =>
          rw [hit] at heq
          injection heq with hr hn
          subst hr
          subst hn
          rw [List.drop_zero, withRead_zero]
        | errored r2 e2 => rw [hit] at heq; cases heq
        | stepped r2 m =>
          rw [hit] at heq
          dsimp only at heq
          by_cases hm : m = 0
          · rw [if_pos hm] at heq
            subst hm
            injection heq with hr hn
            rw [← hr, ← hn]
            rcases parseIter_stepped_zero r data ext r2 hne hit with ⟨hdone, hitx⟩
            rw [List.drop_zero, withRead_zero]
            rw [parse_unfold, if_neg (by rw [append_ne_nil_left data ext hne]; simp), hitx]
            dsimp only
            rw [if_pos rfl]
            rw [parse_done r2 (data ++ ext) hdone]
          · rw [if_neg hm] at heq
            cases hin : parse r2 (data.drop m) with
            | err r3 e3 => rw [hin, withRead] at heq; cases heq
            | ok r3 k =>
              rw [hin, withRead] at heq
              injection heq with hr hn
              rw [← hr, ← hn]
              have hdlen : 1 ≤ data.length := by
                cases data with
                | nil => exact absurd rfl hne
                | cons x xs => simp
              rw [parseIter_step_append r data ext r2 m hne hm hit]
              rcases ih r2 (data.drop m) (by simp only [List.length_drop]; omega) ext
                with ⟨ihOk, _⟩
              rw [ihOk r3 k hin, withRead_withRead, List.drop_drop]
    · intro r' e heq
      rw [parse_unfold] at heq
      by_cases he : data.isEmpty
      · rw [if_pos he] at heq; cases heq
      · rw [if_neg he] at heq
        have hne : data ≠ [] := fun hc => he (by rw [hc]; rfl)
        cases hit : parseIter r data with
        | broke => rw [hit] at heq; cases heq
        | errored r2 e2 =>
          rw [hit] at heq
          injection heq with hr he2
          rw [← hr, ← he2]
          rw [parse_unfold, if_neg (by rw [append_ne_nil_left data ext hne]; simp)]
          rw [parseIter_errored_append r data ext r2 e2 hit]
        | stepped r2 m =>
          rw [hit] at heq
          dsimp only at heq
          by_cases hm : m = 0
          · rw [if_pos hm] at heq; cases heq
          · rw [if_neg hm] at heq
            cases hin : parse r2 (data.drop m) with
            | ok r3 k => rw [hin, withRead] at heq; cases heq
            | err r3 e3 =>
              rw [hin, withRead] at heq
              injection heq with hr he3
              rw [← hr, ← he3]
              have hdlen : 1 ≤ data.length := by
                cases data with
                | nil => exact absurd rfl hne
                | cons x xs => simp
              rw [parseIter_step_append r data ext r2 m hne hm hit]
              rcases ih r2 (data.drop m) (by simp only [List.length_drop]; omega) ext
                with ⟨_, ihErr⟩
              rw [ihErr r3 e3 hin]
              rfl

theorem parse_saturate :
    ∀ (N : Nat) (r : Request) (data : Bytes), data.length ≤ N →
      ∀ r' n, parse r data = .ok r' n → parse r' (data.drop n) = .ok r' 0 := by
  intro N
  induction N with
  | zero =>
    intro r data hlen r' n heq
    have hdata : data = [] := List.eq_nil_of_length_eq_zero (Nat.le_zero.mp hlen)
    subst hdata
    rw [parse_nil] at heq
    injection heq with hr hn
    rw [← hr, ← hn]
    exact parse_nil r
  | succ N ih =>
    intro r data hlen r' n heq
    have horig := heq
    rw [parse_unfold] at heq
    by_cases he : data.isEmpty
    · rw [if_pos he] at heq
      injection heq with hr hn
      rw [← hr, ← hn]
      have hdata : data = [] := List.isEmpty_iff.mp he
      subst hdata
      exact parse_nil r
    · rw [if_neg he] at heq
      have hne : data ≠ [] := fun hc => he (by rw [hc]; rfl)
      cases hit : parseIter r data with
      | broke =>
        rw [hit] at heq
        injection heq with hr hn
        rw [← hr, ← hn] at horig
        rw [← hr, ← hn, List.drop_zero]
        exact horig
      | errored r2 e2 => rw [hit] at heq; cases heq
      | stepped r2 m =>
        rw [hit] at heq
        dsimp only at heq
        by_cases hm : m = 0
        · rw [if_pos hm] at heq
          subst hm
          injection heq with hr hn
          rw [← hr, ← hn, List.drop_zero]
          rcases parseIter_stepped_zero r data [] r2 hne hit with ⟨hdone, _⟩
          exact parse_done r2 data hdone
        · rw [if_neg hm] at heq
          cases hin : parse r2 (data.drop m) with
          | err r3 e3 => rw [hin, withRead] at heq; cases heq
          | ok r3 k =>
            rw [hin, withRead] at heq
            injection heq with hr hn
            rw [← hr, ← hn]
            have hdlen : 1 ≤ data.length := by
              cases data with
              | nil => exact absurd rfl hne
              | cons x xs => simp
            have := ih r2 (data.drop m) (by simp only [List.length_drop]; omega) r3 k hin
            rw [List.drop_drop] at this
            exact this

theorem parseIter_stepped_state (r : Request) (data : Bytes) (r' : Request) (n : Nat)
    (hit : parseIter r data = .stepped r' n) : r'.state ≠ .stateError := by
  rcases r with ⟨rl0, h0, b0, pp0, st0⟩
  cases st0 with
  | stateDone => rw [parseIter] at hit; cases hit
  | stateError => rw [parseIter] at hit; cases hit
  | stateInit =>
    rw [parseIter] at hit
    dsimp only at hit
    cases hrl : parseRequestLine data with
    | needMore => rw [hrl] at hit; cases hit
    | malformed => rw [hrl] at hit; cases hit
    | okLine rl m0 =>
      rw [hrl] at hit
      injection hit with hr _
      rw [← hr]
      intro hc
      cases hc
  | stateHeaders =>
    rw [parseIter] at hit
    dsimp only at hit
    cases hhp : headersParse h0 data with
    | err h2 e2 => rw [hhp] at hit; cases hit
    | okHp h2 m0 dn =>
      rw [hhp] at hit
      dsimp only at hit
      by_cases hm0 : m0 = 0
      · rw [if_pos hm0] at hit; cases hit
      · rw [if_neg hm0] at hit
        injection hit with hr _
        rw [← hr]
        intro hc
        dsimp only at hc
        cases dn with
        | true =>
          rw [if_pos rfl] at hc
          by_cases hb : Request.hasBody ⟨rl0, h2, b0, pp0, .stateHeaders⟩
          · rw [if_pos hb] at hc; cases hc
          · rw [if_neg hb] at hc; cases hc
        | false => rw [if_neg (by simp)] at hc; cases hc
  | stateBody =>
    rw [parseIter] at hit
    dsimp only at hit
    by_cases hL : getInt h0 contentLengthKey 0 = 0
    · rw [if_pos hL] at hit; cases hit
    · rw [if_neg hL] at hit
      by_cases hnd : getInt h0 contentLengthKey 0 - ((b0 : Bytes).length : Int) < 0
      · rw [if_pos hnd] at hit; cases hit
      · rw [if_neg hnd] at hit
        injection hit with hr _
        rw [← hr]
        intro hc
        dsimp only at hc
        by_cases hfull : ((b0 ++ data.take ((getInt h0 contentLengthKey 0 -
            ((b0 : Bytes).length : Int)).toNat ⊓ data.length)).length : Int) =
            getInt h0 contentLengthKey 0
        · rw [if_pos hfull] at hc; cases hc
        · rw [if_neg hfull] at hc; cases hc

theorem parse_ok_state_ne_error :
    ∀ (N : Nat) (r : Request) (data : Bytes), data.length ≤ N →
      r.state ≠ .stateError → ∀ r' n, parse r data = .ok r' n → r'.state ≠ .stateError := by
  intro N
  induction N with
  | zero =>
    intro r data hlen hrs r' n heq
    have hdata : data = [] := List.eq_nil_of_length_eq_zero (Nat.le_zero.mp hlen)
    subst hdata
    rw [parse_nil] at heq
    injection heq with hr _
    rw [← hr]
    exact hrs
  | succ N ih =>
    intro r data hlen hrs r' n heq
    rw [parse_unfold] at heq
    by_cases he : data.isEmpty
    · rw [if_pos he] at heq
      injection heq with hr _
      rw [← hr]
      exact hrs
    · rw [if_neg he] at heq
      have hne : data ≠ [] := fun hc => he (by rw [hc]; rfl)
      cases hit : parseIter r data with
      | broke =>
        rw [hit] at heq
        injection heq with hr _
        rw [← hr]
        exact hrs
      | errored r2 e2 => rw [hit] at heq; cases heq
      | stepped r2 m =>
        rw [hit] at heq
        dsimp only at heq
        have hr2 := parseIter_stepped_state r data r2 m hit
        by_cases hm : m = 0
        · rw [if_pos hm] at heq
          injection heq with hr _
          rw [← hr]
          exact hr2
        · rw [if_neg hm] at heq
          cases hin : parse r2 (data.drop m) with
          | err r3 e3 => rw [hin, withRead] at heq; cases heq
          | ok r3 k =>
            rw [hin, withRead] at heq
            injection heq with hr _
            rw [← hr]
            have hdlen : 1 ≤ data.length := by
              cases data with
              | nil => exact absurd rfl hne
              | cons x xs => simp
            exact ih r2 (data.drop m) (by simp only [List.length_drop]; omega) hr2 r3 k hin

theorem driveChunks_spec :
    ∀ (cs : List Bytes) (r : Request) (buf : Bytes),
      parse r buf = .ok r 0 →
      driveChunks r buf cs =
        match parse r (buf ++ cs.flatten) with
        | .ok rf n => .ok rf n ((buf ++ cs.flatten).drop n)
        | .err rf e => .err rf e := by
  intro cs
  induction cs with
  | nil =>
    intro r buf hsat
    rw [List.flatten_nil, List.append_nil, hsat]
    rw [driveChunks]
    dsimp only
    rw [List.drop_zero]
  | cons c rest ih =>
    intro r buf hsat
    rw [driveChunks]
    have hassoc : buf ++ (c :: rest).flatten = (buf ++ c) ++ rest.flatten := by
      rw [List.flatten_cons, ← List.append_assoc]
    rw [hassoc]
    rcases parse_append (buf ++ c).length r (buf ++ c) (Nat.le_refl _) rest.flatten
      with ⟨hOk, hErr⟩
    cases hp : parse r (buf ++ c) with
    | err r2 e2 =>
      dsimp only
      rw [hErr r2 e2 hp]
    | ok r2 n =>
      dsimp only
      have hsat2 : parse r2 ((buf ++ c).drop n) = .ok r2 0 :=
        parse_saturate (buf ++ c).length r (buf ++ c) (Nat.le_refl _) r2 n hp
      have hnle : n ≤ (buf ++ c).length :=
        parse_read_le (buf ++ c).length r (buf ++ c) (Nat.le_refl _) r2 n hp
      rw [ih r2 ((buf ++ c).drop n) hsat2]
      rw [hOk r2 n hp]
      cases hX : parse r2 ((buf ++ c).drop n ++ rest.flatten) with
      | ok rf k =>
        dsimp only [withRead]
        have hdrp : ((buf ++ c).drop n ++ rest.flatten).drop k =
            (buf ++ c ++ rest.flatten).drop (n + k) := by
          rw [← List.drop_append_of_le_length hnle, List.drop_drop]
        rw [hdrp]
      | err rf e => dsimp only [withRead]

/-- C1: for every byte sequence decoded as a complete request by a
single parse call, driving the parser over the sequence split into
arbitrary nonempty chunks — each call receiving the unconsumed suffix of
the previous call plus the next chunk — reaches the same terminal
Request and consumes the same total number of bytes, leaving the same
unconsumed suffix. -/
theorem chunk_boundary_invariance (cs : List Bytes) (rf : Request) (n : Nat)
    (hchunks : ∀ c ∈ cs, c ≠ [])
    (hwhole : parse newRequest cs.flatten = .ok rf n)
    (hdone : rf.state = .stateDone) :
    driveChunks newRequest [] cs = .ok rf n (cs.flatten.drop n) := by
  have h := driveChunks_spec cs newRequest [] (parse_nil newRequest)
  rw [List.nil_append] at h
  rw [h, hwhole]

/-- The request decoded from `GET / HTTP/1.1` with no headers. -/
def reqGetRoot : Request :=
  { requestLine :=
      { httpVersion := "1.1".toList, requestTarget := "/".toList
        method := "GET".toList }
    headers := NewHeaders
    body := []
    pathParams := []
    state := .stateDone }

theorem chunk_boundary_invariance_witness :
    driveChunks newRequest [] ("GET / HTTP/1.1\r\n\r\n".toList.map (fun c => [c])) =
      .ok reqGetRoot 18 (("GET / HTTP/1.1\r\n\r\n".toList.map (fun c => [c])).flatten.drop 18) :=
  chunk_boundary_invariance ("GET / HTTP/1.1\r\n\r\n".toList.map (fun c => [c]))
    reqGetRoot 18 (by decide) (by decide) rfl

theorem rfrLoop_spec :
    ∀ (reads : List Bytes) (r : Request) (buf : Bytes),
      r.state ≠ .stateError → parse r buf = .ok r 0 →
      rfrLoop r buf reads =
        match parse r (buf ++ reads.flatten) with
        | .err _ e => .error (.parseErr e)
        | .ok rf _ =>
          if rf.state = .stateDone then .ok rf else .error .connectionClosedEarly := by
  intro reads
  induction reads with
  | nil =>
    intro r buf hrs hsat
    rw [List.flatten_nil, List.append_nil, hsat]
    rw [rfrLoop]
    dsimp only
    by_cases hdone : r.state = .stateDone
    · rw [if_pos (by rw [Request.isDone, hdone]; simp), if_pos hdone]
    · rw [if_neg ?hc, if_neg hdone]
      case hc =>
        rw [Request.isDone]
        simp only [Bool.or_eq_true, decide_eq_true_eq]
        rintro (h | h)
        · exact hdone h
        · exact hrs h
  | cons c rest ih =>
    intro r buf hrs hsat
    rw [rfrLoop]
    have hassoc : buf ++ (c :: rest).flatten = (buf ++ c) ++ rest.flatten := by
      rw [List.flatten_cons, ← List.append_assoc]
    rw [hassoc]
    by_cases hdone : r.state = .stateDone
    · rw [if_pos (by rw [Request.isDone, hdone]; simp)]
      have hpd : parse r ((buf ++ c) ++ rest.flatten) = .ok r 0 :=
        parse_done r _ hdone
      rw [hpd]
      dsimp only
      rw [if_pos hdone]
    · rw [if_neg ?hc]
      case hc =>
        rw [Request.isDone]
        simp only [Bool.or_eq_true, decide_eq_true_eq]
        rintro (h | h)
        · exact hdone h
        · exact hrs h
      rcases parse_append (buf ++ c).length r (buf ++ c) (Nat.le_refl _) rest.flatten
        with ⟨hOk, hErr⟩
      cases hp : parse r (buf ++ c) with
      | err r2 e2 =>
        dsimp only
        rw [hErr r2 e2 hp]
      | ok r2 n =>
        dsimp only
        have hsat2 : parse r2 ((buf ++ c).drop n) = .ok r2 0 :=
          parse_saturate (buf ++ c).length r (buf ++ c) (Nat.le_refl _) r2 n hp
        have hrs2 : r2.state ≠ .stateError :=
          parse_ok_state_ne_error (buf ++ c).length r (buf ++ c) (Nat.le_refl _) hrs r2 n hp
        rw [ih r2 ((buf ++ c).drop n) hrs2 hsat2]
        rw [hOk r2 n hp]
        cases hX : parse r2 ((buf ++ c).drop n ++ rest.flatten) with
        | ok rf k => dsimp only [withRead]
        | err rf e => dsimp only [withRead]

/-- C9: `RequestFromReader` returns the distinct connection-closed-early
error exactly when the byte source is exhausted before decoding reaches
Done; when the source's bytes decode to a Done request, that request is
returned without error, so early closure is never confused with a
malformed request. -/
theorem connection_closed_early (reads : List Bytes) (rf : Request) (n : Nat)
    (hwhole : parse newRequest reads.flatten = .ok rf n) :
    (RequestFromReader reads = .error .connectionClosedEarly ↔ rf.state ≠ .stateDone) ∧
    (rf.state = .stateDone → RequestFromReader reads = .ok rf) := by
  have h := rfrLoop_spec reads newRequest [] (by intro hc; cases hc) (parse_nil newRequest)
  rw [List.nil_append, hwhole] at h
  rw [RequestFromReader, h]
  dsimp only
  by_cases hdone : rf.state = .stateDone
  · rw [if_pos hdone]
    constructor
    · constructor
      · intro hcontra; cases hcontra
      · intro hcontra; exact absurd hdone hcontra
    · intro _; rfl
  · rw [if_neg hdone]
    constructor
    · constructor
      · intro _; exact hdone
      · intro _; rfl
    · intro hc; exact absurd hc hdone

/-- The decoder state after consuming only the request line
`GET / HTTP/1.1`. -/
def reqLineOnly : Request :=
  { requestLine :=
      { httpVersion := "1.1".toList, requestTarget := "/".toList
        method := "GET".toList }
    headers := NewHeaders
    body := []
    pathParams := []
    state := .stateHeaders }

theorem connection_closed_early_witness :
    (RequestFromReader ["GET / HTTP/1.1\r\n".toList] = .error .connectionClosedEarly ↔
      reqLineOnly.state ≠ .stateDone) ∧
    (reqLineOnly.state = .stateDone →
      RequestFromReader ["GET / HTTP/1.1\r\n".toList] = .ok reqLineOnly) :=
  connection_closed_early ["GET / HTTP/1.1\r\n".toList] reqLineOnly 16 (by decide)

/-- Modelled from the spec: the repository's current `request.go` (with
query support) is absent from the source snapshot — only this older
copy, the code-explanation document and the example handlers reading
`r.Query` are present.  Go `strings.Cut` on a one-byte separator: the
part before the first occurrence, the part after, and whether it was
found (the whole string and an empty remainder when absent). -/
def cutOnChar (sep : Char) : Bytes → Bytes × Bytes × Bool
  | [] => ([], [], false)
  | c :: rest =>
    if c = sep then ([], rest, true)
    else
      let r := cutOnChar sep rest
      (c :: r.1, r.2.1, r.2.2)

/-- Modelled from the spec: insert one decoded query pair, appending to
the value list of an existing name. -/
def queryInsert (q : List (Bytes × List Bytes)) (k v : Bytes) :
    List (Bytes × List Bytes) :=
  match q with
  | [] => [(k, [v])]
  | (k0, vs) :: rest =>
    if k0 = k then (k0, vs ++ [v]) :: rest else (k0, vs) :: queryInsert rest k v

/-- Modelled from the spec: parse a raw query string into the name to
list-of-values mapping; a semicolon separator makes the whole string
malformed (as in `net/url.ParseQuery`), reported as `none`. -/
def parseQuery? (raw : Bytes) : Option (List (Bytes × List Bytes)) :=
  if containsChar ';' raw then none
  else
    some
      (((splitOnChar '&' raw).filter (· ≠ [])).foldl
        (fun acc part =>
          let kv := cutOnChar '=' part
          queryInsert acc kv.1 kv.2.1) [])

/-- Modelled from the spec: a malformed query string degrades to the
empty mapping rather than failing the request. -/
def queryOf (raw : Bytes) : List (Bytes × List Bytes) :=
  (parseQuery? raw).getD []

/-- Result of the spec-modelled request-line parser with query
support. -/
inductive RLQResult where
  | needMore
  | malformed
  | okLineQ (rl : RequestLine) (query : List (Bytes × List Bytes)) (read : Nat)
deriving DecidableEq, Repr

/-- Modelled from the spec: `parseRequestLine` of the repository's
query-aware `request.go`: as the snapshot's version, but the
request-target is split on the first `?` into the path (stored as the
request target) and the raw query string, which is parsed into the
query mapping. -/
def parseRequestLineQ (b : Bytes) : RLQResult :=
  match crlfIndex b with
  | none => .needMore
  | some idx =>
    let startLine := b.take idx
    let read := idx + 2
    let parts := splitOnChar ' ' startLine
    if parts.length = 3 then
      let httpParts := splitOnChar '/' (parts.getD 2 [])
      if httpParts.length = 2 ∧ httpParts.getD 0 [] = "HTTP".toList ∧
          httpParts.getD 1 [] = "1.1".toList then
        let cut := cutOnChar '?' (parts.getD 1 [])
        .okLineQ
          { method := parts.getD 0 []
            requestTarget := cut.1
            httpVersion := httpParts.getD 1 [] } (queryOf cut.2.1) read
      else .malformed
    else .malformed

/-- Modelled from the spec: decode a whole buffered request with the
query-aware request line parser, handing the remainder to the header and
body state machine, returning the decoded request, its query mapping and
the total bytes consumed. -/
def decodeQ (data : Bytes) : Option ((Request × List (Bytes × List Bytes)) × Nat) :=
  match parseRequestLineQ data with
  | .needMore => none
  | .malformed => none
  | .okLineQ rl q n =>
    match parse { newRequest with requestLine := rl, state := .stateHeaders }
        (data.drop n) with
    | .ok r m => some ((r, q), n + m)
    | .err _ _ => none

/-- C2: the query-aware decoder splits the request-target on the first
`?` into path and raw query string (the cut reassembles the target and
the path contains no `?`), a malformed query string degrades to the
empty mapping, and decoding `GET /x?q=1 HTTP/1.1` with an empty body
yields path `/x`, query mapping q to [1], empty body, Done state, all
42 bytes consumed. -/
theorem query_parsing :
    decodeQ "GET /x?q=1 HTTP/1.1\r\nContent-Length: 0\r\n\r\n".toList =
      some
        (({ requestLine :=
              { httpVersion := "1.1".toList, requestTarget := "/x".toList
                method := "GET".toList }
            headers := Headers.mk [("content-length".toList, "0".toList)]
            body := []
            pathParams := []
            state := .stateDone },
          [("q".toList, ["1".toList])]), 42) ∧
    (∀ (l before after : Bytes), cutOnChar '?' l = (before, after, true) →
      before ++ '?' :: after = l ∧ containsChar '?' before = false) ∧
    (∀ raw : Bytes, containsChar ';' raw = true → queryOf raw = []) := by
  refine ⟨rfl, ?_, ?_⟩
  · intro l
    induction l with
    | nil =>
      intro before after hcut
      rw [cutOnChar] at hcut
      cases hcut
    | cons c rest ih =>
      intro before after hcut
      rw [cutOnChar] at hcut
      by_cases hc : c = '?'
      · rw [if_pos hc] at hcut
        injection hcut with h1 h2
        injection h2 with h2 _
        rw [← h1, ← h2, hc]
        exact ⟨rfl, rfl⟩
      · rw [if_neg hc] at hcut
        dsimp only at hcut
        injection hcut with h1 h2
        injection h2 with h2 h3
        rcases hr : cutOnChar '?' rest with ⟨b2, a2, f2⟩
        rw [hr] at h1 h2 h3
        dsimp only at h1 h2 h3
        rcases ih b2 a2 (by rw [hr, ← h3]) with ⟨hre, hnc⟩
        constructor
        · rw [← h1, ← h2]
          rw [List.cons_append, hre]
        · rw [← h1]
          simp only [containsChar, List.contains_cons, Bool.or_eq_false_iff,
            beq_eq_false_iff_ne, ne_eq]
          exact ⟨fun hcc => hc hcc.symm, hnc⟩
  · intro raw hsemi
    rw [queryOf, parseQuery?, if_pos hsemi]
    rfl

theorem query_parsing_witness :
    (['a'] ++ '?' :: ['b'] = ['a', '?', 'b'] ∧ containsChar '?' ['a'] = false) ∧
    queryOf ['x', ';', 'y'] = [] :=
  ⟨query_parsing.2.1 ['a', '?', 'b'] ['a'] ['b'] (by decide),
   query_parsing.2.2 ['x', ';', 'y'] (by decide)⟩
